import Mathlib

/-!
# Verification of the therapy-calendar scheduling logic

A shallow embedding, in Lean 4, of the scheduling core of the
therapy-practice calendar application (browser client plus the SQL backend
in `server.js`), together with proofs about it.

Modelling conventions:

* JavaScript `Date` values are modelled at minute granularity.  Where only
  interval comparison matters (overlap checks) a date is an `Int` absolute
  minute count; for the calendar arithmetic (`setDate`, `setMonth`) a
  Gregorian `DateTime` record is used, with `dayNumber` giving the count of
  days since 1 January of year 0 of the proleptic Gregorian calendar (this
  is exactly the day component of the JS time value, shifted by a constant).
* Firestore `Timestamp` fields that may be absent (`data.start?.toDate()`)
  are `Option Int`; JS comparisons involving `undefined`/`NaN` are always
  false, which `jsLt` reproduces.
* JS strings are `List Char`.
-/

/-- An appointment as held in the in-memory `appointments` array of the
browser client.  `start`/`endT` model `data.start?.toDate()` and
`data.end?.toDate()` (`endT` because `end` is a Lean keyword); they are
`none` when the Firestore document lacks the field.  Fields not consulted
by the embedded functions (priority, notes, timestamps, ...) are elided. -/
structure Appt where
  id : Nat
  clientId : Option Nat
  start : Option Int
  endT : Option Int
  status : String
  deriving DecidableEq

/-- A client record (only the fields the embedded functions consult). -/
structure Client where
  id : Nat
  name : String
  deriving DecidableEq

/-- JS `<` on two `Date`s where either side may be an Invalid Date / come
from an `undefined` field: any comparison involving such a value is false. -/
def jsLt : Option Int → Option Int → Bool
  | some a, some b => a < b
  | _, _ => false

/-- A raw Firestore snapshot document for an appointment (the fields read
by the snapshot listener). -/
structure ApptDoc where
  id : Nat
  clientId : Option Nat
  start : Option Int
  endT : Option Int
  status : String
  deriving DecidableEq

/-- The per-document conversion done inside the `onSnapshot` callback:
`{ id: doc.id, ...data, start: data.start?.toDate(), end: data.end?.toDate() }`.
The callback only `console.warn`s on malformed documents; it does not drop
them. -/
def toAppt (d : ApptDoc) : Appt :=
  { id := d.id, clientId := d.clientId, start := d.start, endT := d.endT,
    status := d.status }

/-- The snapshot processing `appointments = snapshot.docs.map(doc => ...)`
in `setupDataListeners`: a `map`, with warnings logged for documents whose
fields are missing or whose `end <= start`, but no filtering. -/
def processSnapshot (docs : List ApptDoc) : List Appt :=
  docs.map toAppt

/-- The filter applied in `renderCalendarEvents` before events are handed
to the calendar widget: appointments with a missing `start`, `end` or
`clientId`, or with `end <= start`, are dropped (with a warning). -/
def renderEventsFilter (appointments : List Appt) : List Appt :=
  appointments.filter fun a =>
    a.start.isSome && a.endT.isSome && a.clientId.isSome &&
      jsLt a.start a.endT

/-- `checkForOverlaps(startTime, endTime, excludeAppointmentId)`: returns
the appointments (other than the excluded one) whose interval strictly
intersects `[startTime, endTime)`:
`newStart < aptEnd && newEnd > aptStart`. -/
def checkForOverlaps (startTime endTime : Int) (excludeAppointmentId : Option Nat)
    (appointments : List Appt) : List Appt :=
  appointments.filter fun apt =>
    if excludeAppointmentId = some apt.id then false
    else jsLt (some startTime) apt.endT && jsLt apt.start (some endTime)

/-- The conflict record returned by `checkVoiceAppointmentOverlap`:
the conflicting client's display name and the conflicting time range. -/
structure OverlapInfo where
  clientName : String
  rangeStart : Option Int
  rangeEnd : Option Int
  deriving DecidableEq

/-- The client-name lookup used when reporting a conflict:
`clients.find(c => c.id === existingAppt.clientId)?.name || 'Unknown Client'`. -/
def overlapClientName (clients : List Client) (apt : Appt) : String :=
  match clients.find? fun c => some c.id = apt.clientId with
  | some c => c.name
  | none => "Unknown Client"

/-- The scan loop of `checkVoiceAppointmentOverlap` (lines 4005-4031): walk
the existing appointments and return a conflict record for the first one
whose interval strictly intersects the proposed `[newStart, newEnd)`
(`appointmentDate < existingEnd && endTime > existingStart`); `null` when
none does.  `newStart`/`newEnd` are the proposed start and end obtained
from the already-parsed date, time and duration. -/
def voiceOverlapScan (clients : List Client) (newStart newEnd : Int) :
    List Appt → Option OverlapInfo
  | [] => none
  | apt :: rest =>
      if jsLt (some newStart) apt.endT && jsLt apt.start (some newEnd) then
        some { clientName := overlapClientName clients apt,
               rangeStart := apt.start, rangeEnd := apt.endT }
      else voiceOverlapScan clients newStart newEnd rest

/-- `checkVoiceAppointmentOverlap` after date/time parsing succeeded: the
proposed interval is `[start, start + duration)` with `duration` in minutes
(default 60 upstream), checked by the scan loop. -/
def checkVoiceAppointmentOverlap (clients : List Client) (start duration : Int)
    (appointments : List Appt) : Option OverlapInfo :=
  voiceOverlapScan clients start (start + duration) appointments

/-- Strict intersection of an existing appointment with `[s, e)`, the test
both overlap checkers use. -/
def strictIntersect (s e : Int) (apt : Appt) : Prop :=
  ∃ es ee, apt.start = some es ∧ apt.endT = some ee ∧ s < ee ∧ es < e

/-- The Boolean intersection test agrees with `strictIntersect`. -/
theorem jsLt_and_iff_strictIntersect (s e : Int) (apt : Appt) :
    (jsLt (some s) apt.endT && jsLt apt.start (some e)) = true ↔
      strictIntersect s e apt := by
  rcases hs : apt.start with _ | es <;> rcases he : apt.endT with _ | ee <;>
    simp [jsLt, strictIntersect, hs, he]

instance (s e : Int) (apt : Appt) : Decidable (strictIntersect s e apt) :=
  decidable_of_iff _ (jsLt_and_iff_strictIntersect s e apt)

theorem voiceOverlapScan_isSome_iff (clients : List Client) (s e : Int)
    (l : List Appt) :
    (voiceOverlapScan clients s e l).isSome = true ↔
      ∃ apt ∈ l, strictIntersect s e apt := by
  induction l with
  | nil => simp [voiceOverlapScan]
  | cons apt rest ih =>
      rw [voiceOverlapScan]
      by_cases h : (jsLt (some s) apt.endT && jsLt apt.start (some e)) = true
      · rw [if_pos h]
        simp only [Option.isSome_some, true_iff]
        exact ⟨apt, List.mem_cons_self apt rest,
          (jsLt_and_iff_strictIntersect s e apt).mp h⟩
      · rw [if_neg h, ih]
        constructor
        · rintro ⟨a, ha, hi⟩; exact ⟨a, List.mem_cons_of_mem _ ha, hi⟩
        · rintro ⟨a, ha, hi⟩
          rcases List.mem_cons.mp ha with rfl | ha'
          · exact absurd ((jsLt_and_iff_strictIntersect s e a).mpr hi) h
          · exact ⟨a, ha', hi⟩

theorem checkForOverlaps_mem_iff (s e : Int) (ex : Option Nat)
    (l : List Appt) (apt : Appt) :
    apt ∈ checkForOverlaps s e ex l ↔
      apt ∈ l ∧ ¬ ex = some apt.id ∧ strictIntersect s e apt := by
  unfold checkForOverlaps
  rw [List.mem_filter]
  by_cases hex : ex = some apt.id
  · simp [hex]
  · rw [if_neg hex, jsLt_and_iff_strictIntersect]
    simp [hex]

/-- C3: with a successfully parsed proposed interval
`[start, start + duration)`, `checkVoiceAppointmentOverlap` reports a
conflict iff some existing appointment strictly intersects it
(`proposed start < existing end` and `existing start < proposed end`);
back-to-back appointments sharing only an endpoint never conflict; and
`checkForOverlaps` (drag/resize) selects appointments by the very same
strict-intersection test. -/
theorem C3_voice_overlap_strict_intersection (clients : List Client)
    (start duration : Int) (appointments : List Appt) :
    ((checkVoiceAppointmentOverlap clients start duration appointments).isSome = true ↔
      ∃ apt ∈ appointments, strictIntersect start (start + duration) apt) ∧
    (∀ apt : Appt,
      apt ∈ checkForOverlaps start (start + duration) none appointments ↔
        apt ∈ appointments ∧ strictIntersect start (start + duration) apt) ∧
    ((∀ apt ∈ appointments,
        apt.endT = some start ∨ apt.start = some (start + duration)) →
      checkVoiceAppointmentOverlap clients start duration appointments = none) := by
  refine ⟨voiceOverlapScan_isSome_iff clients start (start + duration) appointments,
    fun apt => ?_, fun hbb => ?_⟩
  · rw [checkForOverlaps_mem_iff]
    simp
  · rcases hnone : checkVoiceAppointmentOverlap clients start duration appointments with
      _ | info
    · rfl
    · exfalso
      have hsome : (checkVoiceAppointmentOverlap clients start duration
          appointments).isSome = true := by rw [hnone]; rfl
      obtain ⟨apt, hmem, es, ee, hs, he, h1, h2⟩ :=
        (voiceOverlapScan_isSome_iff clients start (start + duration)
          appointments).mp hsome
      rcases hbb apt hmem with hend | hstart
      · rw [hend] at he; cases he; exact absurd h1 (lt_irrefl _)
      · rw [hstart] at hs; cases hs; exact absurd h2 (lt_irrefl _)

/-- Concrete instances exercising `C3_voice_overlap_strict_intersection`:
an overlapping appointment is reported, and a purely back-to-back set
yields no conflict. -/
theorem C3_witness :
    ((checkVoiceAppointmentOverlap []
        0 60 [{ id := 1, clientId := some 1, start := some 30,
                endT := some 90, status := "scheduled" }]).isSome = true) ∧
    (checkVoiceAppointmentOverlap []
        0 60 [{ id := 1, clientId := some 1, start := some 60,
                endT := some 120, status := "scheduled" }] = none) := by
  constructor
  · exact (C3_voice_overlap_strict_intersection [] 0 60 _).1.mpr
      ⟨_, List.mem_singleton.mpr rfl, by decide⟩
  · exact (C3_voice_overlap_strict_intersection [] 0 60 _).2.2
      (by intro apt h; rw [List.mem_singleton] at h; subst h; right; rfl)

/-- An arbitrary rewrite of the `status` field of an appointment (e.g.
marking it cancelled, completed or no-show), leaving every other field
unchanged. -/
def setStatus (g : Appt → String) (a : Appt) : Appt :=
  { a with status := g a }

theorem strictIntersect_setStatus (s e : Int) (g : Appt → String) (a : Appt) :
    strictIntersect s e (setStatus g a) ↔ strictIntersect s e a := by
  simp [strictIntersect, setStatus]

theorem voiceOverlapScan_setStatus (clients : List Client) (s e : Int)
    (g : Appt → String) (l : List Appt) :
    voiceOverlapScan clients s e (l.map (setStatus g)) =
      voiceOverlapScan clients s e l := by
  induction l with
  | nil => rfl
  | cons apt rest ih =>
      simp only [List.map_cons, voiceOverlapScan, setStatus, ih]
      rfl

/-- C10: neither overlap check consults `status`.  Rewriting the status of
every appointment (e.g. cancelling some of them) leaves the voice conflict
answer unchanged and maps the drag/resize conflict list pointwise; in
particular a cancelled appointment strictly intersecting the proposed slot
still blocks voice scheduling. -/
theorem C10_overlap_checks_ignore_status (clients : List Client)
    (start duration endTime : Int) (ex : Option Nat)
    (appointments : List Appt) :
    (∀ g : Appt → String,
      checkVoiceAppointmentOverlap clients start duration
          (appointments.map (setStatus g)) =
        checkVoiceAppointmentOverlap clients start duration appointments) ∧
    (∀ g : Appt → String,
      checkForOverlaps start endTime ex (appointments.map (setStatus g)) =
        (checkForOverlaps start endTime ex appointments).map (setStatus g)) ∧
    (∀ apt ∈ appointments, apt.status = "cancelled" →
      strictIntersect start (start + duration) apt →
      (checkVoiceAppointmentOverlap clients start duration
          appointments).isSome = true) := by
  refine ⟨fun g => voiceOverlapScan_setStatus clients start (start + duration) g
      appointments, fun g => ?_, fun apt hmem _ hint => ?_⟩
  · unfold checkForOverlaps
    rw [List.filter_map]
    congr 1
  · exact (voiceOverlapScan_isSome_iff clients start (start + duration)
      appointments).mpr ⟨apt, hmem, hint⟩

/-- Concrete instance of `C10_overlap_checks_ignore_status`: a cancelled
appointment on the proposed slot still produces a conflict. -/
theorem C10_witness :
    (checkVoiceAppointmentOverlap []
        0 60 [{ id := 1, clientId := some 1, start := some 30,
                endT := some 90, status := "cancelled" }]).isSome = true :=
  (C10_overlap_checks_ignore_status [] 0 60 60 none _).2.2
    { id := 1, clientId := some 1, start := some 30,
      endT := some 90, status := "cancelled" }
    (List.mem_singleton.mpr rfl) rfl (by decide)

/-- A snapshot document whose `end` is before its `start`. -/
def invalidDurationDoc : ApptDoc :=
  { id := 1, clientId := some 1, start := some 100, endT := some 40,
    status := "scheduled" }

/-- C1 counterexample: after processing a snapshot containing a document
with `end <= start`, the in-memory appointment list still contains that
appointment — the listener only warns, it does not filter, so `end > start`
does not hold for every in-memory appointment. -/
theorem C1_counterexample :
    ∃ a ∈ processSnapshot [invalidDurationDoc],
      ∃ s e, a.start = some s ∧ a.endT = some e ∧ e ≤ s := by
  refine ⟨toAppt invalidDurationDoc, ?_, 100, 40, rfl, rfl, by decide⟩
  simp [processSnapshot]

/-- C1 as amended: the snapshot listener keeps every document (violations
of `end > start` are merely warned about), and the `end > start` invariant
is instead enforced at render time: every appointment surviving the
`renderCalendarEvents` filter has present fields and `start < end`. -/
theorem C1_invalid_kept_in_memory_filtered_at_render :
    (∀ (docs : List ApptDoc) (d : ApptDoc), d ∈ docs →
      toAppt d ∈ processSnapshot docs) ∧
    (∀ (appointments : List Appt) (a : Appt), a ∈ renderEventsFilter appointments →
      ∃ s e, a.start = some s ∧ a.endT = some e ∧ a.clientId.isSome = true ∧
        s < e) := by
  constructor
  · intro docs d hd
    exact List.mem_map_of_mem toAppt hd
  · intro appointments a ha
    obtain ⟨-, hcond⟩ := List.mem_filter.mp ha
    simp only [Bool.and_eq_true] at hcond
    obtain ⟨⟨⟨hs, he⟩, hc⟩, hlt⟩ := hcond
    obtain ⟨s, hs'⟩ := Option.isSome_iff_exists.mp hs
    obtain ⟨e, he'⟩ := Option.isSome_iff_exists.mp he
    rw [hs', he'] at hlt
    exact ⟨s, e, hs', he', hc, by simpa [jsLt] using hlt⟩

/-- A valid appointment, used to exercise both halves of the amended C1
theorem at concrete inputs. -/
def validAppt : Appt :=
  { id := 2, clientId := some 1, start := some 40, endT := some 100,
    status := "scheduled" }

/-- Concrete instance of `C1_invalid_kept_in_memory_filtered_at_render`:
the invalid document is kept by snapshot processing, and a valid
survivor of the render filter indeed has `start < end`. -/
theorem C1_witness :
    toAppt invalidDurationDoc ∈ processSnapshot [invalidDurationDoc] ∧
    ∃ s e, validAppt.start = some s ∧ validAppt.endT = some e ∧
      validAppt.clientId.isSome = true ∧ s < e :=
  ⟨C1_invalid_kept_in_memory_filtered_at_render.1 [invalidDurationDoc]
      invalidDurationDoc (by decide),
    C1_invalid_kept_in_memory_filtered_at_render.2 [validAppt] validAppt
      (by decide)⟩

/-- The parameters of a staged voice appointment, after interpretation of
the transcript.  `clientId` abstracts the fuzzy-matched (or auto-created)
client; `start` is the result of parsing `params.date`/`params.time`
(`none` models an unparsable date or time, in which case both the overlap
checker and the scheduling handler bail out); `duration` is
`params.duration`, `none` when absent (the code then defaults to 60). -/
structure VoiceParams where
  clientId : Nat
  clientName : String
  start : Option Int
  duration : Option Int
  deriving DecidableEq

/-- `params.duration || 60`. -/
def voiceDuration (p : VoiceParams) : Int := p.duration.getD 60

/-- The client-side state relevant to the voice confirmation flow: the
in-memory appointment list and the module-level `pendingVoiceAppointment`. -/
structure VoiceState where
  appointments : List Appt
  pendingVoiceAppointment : Option VoiceParams
  deriving DecidableEq

/-- `checkVoiceAppointmentOverlap(params)` from the staged parameters: if
date/time parsing fails it returns `null`; otherwise it scans the existing
appointments for a strict intersection with
`[start, start + duration)`. -/
def checkPendingOverlap (clients : List Client) (p : VoiceParams)
    (appointments : List Appt) : Option OverlapInfo :=
  match p.start with
  | none => none
  | some s => checkVoiceAppointmentOverlap clients s (voiceDuration p) appointments

/-- The appointment document built by `handleVoiceScheduleAppointment`:
`end = start + duration minutes`, status `scheduled`; `newId` stands for
the Firestore-generated document id. -/
def mkVoiceAppt (newId : Nat) (p : VoiceParams) (s : Int) : Appt :=
  { id := newId, clientId := some p.clientId, start := some s,
    endT := some (s + voiceDuration p), status := "scheduled" }

/-- `handleVoiceScheduleAppointment(params)` restricted to its effect on
the appointment set: on a parse failure it returns early without writing;
otherwise it adds the single built appointment. -/
def handleVoiceScheduleAppointment (newId : Nat) (p : VoiceParams)
    (appointments : List Appt) : List Appt :=
  match p.start with
  | none => appointments
  | some s => appointments ++ [mkVoiceAppt newId p s]

/-- `showAppointmentConfirmation(responseData)`: stage the parameters in
`pendingVoiceAppointment`; nothing is written to the appointment set. -/
def showAppointmentConfirmation (p : VoiceParams) (st : VoiceState) : VoiceState :=
  { st with pendingVoiceAppointment := some p }

/-- `cancelVoiceAppointment()`: clear the pending appointment; nothing is
written to the appointment set. -/
def cancelVoiceAppointment (st : VoiceState) : VoiceState :=
  { st with pendingVoiceAppointment := none }

/-- `confirmVoiceAppointment()`: no-op when nothing is pending; if the
overlap check reports a conflict, show a toast and return (the pending
appointment is kept); otherwise run the scheduling handler and clear the
pending appointment. -/
def confirmVoiceAppointment (clients : List Client) (newId : Nat)
    (st : VoiceState) : VoiceState :=
  match st.pendingVoiceAppointment with
  | none => st
  | some p =>
      match checkPendingOverlap clients p st.appointments with
      | some _ => st
      | none =>
          { appointments := handleVoiceScheduleAppointment newId p st.appointments,
            pendingVoiceAppointment := none }

/-- C5: a voice appointment is never committed before confirmation.
Staging leaves the appointment set unchanged; cancelling clears the
pending appointment and leaves the appointment set unchanged; confirming
with a conflicting overlap check leaves the whole state unchanged; and
whenever confirmation changes the appointment set at all, the overlap
check returned no conflict and the change is exactly the commit of the
pending appointment (after which nothing is pending). -/
theorem C5_voice_confirm_cancel_flow (clients : List Client) (newId : Nat)
    (p : VoiceParams) (st : VoiceState) :
    ((showAppointmentConfirmation p st).appointments = st.appointments ∧
      (showAppointmentConfirmation p st).pendingVoiceAppointment = some p) ∧
    ((cancelVoiceAppointment st).appointments = st.appointments ∧
      (cancelVoiceAppointment st).pendingVoiceAppointment = none) ∧
    (st.pendingVoiceAppointment = some p →
      (checkPendingOverlap clients p st.appointments).isSome = true →
      confirmVoiceAppointment clients newId st = st) ∧
    (st.pendingVoiceAppointment = some p →
      checkPendingOverlap clients p st.appointments = none →
      confirmVoiceAppointment clients newId st =
        { appointments := handleVoiceScheduleAppointment newId p st.appointments,
          pendingVoiceAppointment := none }) ∧
    ((confirmVoiceAppointment clients newId st).appointments ≠ st.appointments →
      ∃ q, st.pendingVoiceAppointment = some q ∧
        checkPendingOverlap clients q st.appointments = none) := by
  refine ⟨⟨rfl, rfl⟩, ⟨rfl, rfl⟩, fun hp hc => ?_, fun hp hc => ?_, fun hch => ?_⟩
  · unfold confirmVoiceAppointment
    rw [hp]
    obtain ⟨info, hinfo⟩ := Option.isSome_iff_exists.mp hc
    dsimp only
    rw [hinfo]
  · unfold confirmVoiceAppointment
    rw [hp]
    dsimp only
    rw [hc]
  · unfold confirmVoiceAppointment at hch
    rcases hq : st.pendingVoiceAppointment with _ | q
    · rw [hq] at hch; exact absurd rfl hch
    · rw [hq] at hch
      dsimp only at hch
      rcases hcheck : checkPendingOverlap clients q st.appointments with _ | info
      · exact ⟨q, rfl, hcheck⟩
      · rw [hcheck] at hch; exact absurd rfl hch

/-- Concrete instance of `C5_voice_confirm_cancel_flow`: with a pending
voice appointment that conflicts with the one existing appointment,
confirmation leaves the state unchanged. -/
theorem C5_witness :
    confirmVoiceAppointment [] 7
      { appointments := [{ id := 1, clientId := some 1, start := some 30,
                           endT := some 90, status := "scheduled" }],
        pendingVoiceAppointment := some
          { clientId := 2, clientName := "Dana", start := some 0,
            duration := some 60 } } =
      { appointments := [{ id := 1, clientId := some 1, start := some 30,
                           endT := some 90, status := "scheduled" }],
        pendingVoiceAppointment := some
          { clientId := 2, clientName := "Dana", start := some 0,
            duration := some 60 } } :=
  (C5_voice_confirm_cancel_flow [] 7
      { clientId := 2, clientName := "Dana", start := some 0,
        duration := some 60 } _).2.2.1 rfl (by decide)

/-! ## The SQL backend (`server.js`)

Rows mirror the `CREATE TABLE` statements in `initDb`; timestamps are
`Int` minutes, `NULL`able columns are `Option`.  `created_at`/`updated_at`
are elided.  Query results are modelled without `ORDER BY` (ordering is
immaterial to the ownership properties).  `SERIAL PRIMARY KEY` makes `id`
unique per table, so a `WHERE id = $1 AND user_uid = $2` hit is the unique
row with that id. -/

structure ClientRow where
  id : Nat
  userUid : String
  name : String
  email : Option String
  phone : Option String
  color : Option String
  notes : Option String
  deriving DecidableEq

structure ProviderRow where
  id : Nat
  userUid : String
  name : String
  email : Option String
  title : Option String
  color : Option String
  deriving DecidableEq

structure AppointmentRow where
  id : Nat
  userUid : String
  clientId : Nat
  providerId : Option Nat
  startTime : Int
  endTime : Int
  durationMinutes : Option Int
  priority : Option String
  status : Option String
  notes : Option String
  repeats : Option String
  deriving DecidableEq

structure Db where
  clients : List ClientRow
  providers : List ProviderRow
  appointments : List AppointmentRow
  deriving DecidableEq

inductive ApiStatus
  | ok
  | notFound
  deriving DecidableEq

/-- `GET /api/clients`: `SELECT * FROM clients WHERE user_uid = $1`. -/
def listClients (uid : String) (db : Db) : List ClientRow :=
  db.clients.filter fun r => decide (r.userUid = uid)

/-- `GET /api/providers`: `SELECT * FROM providers WHERE user_uid = $1`. -/
def listProviders (uid : String) (db : Db) : List ProviderRow :=
  db.providers.filter fun r => decide (r.userUid = uid)

/-- `GET /api/appointments`: `SELECT * FROM appointments WHERE user_uid = $1`. -/
def listAppointments (uid : String) (db : Db) : List AppointmentRow :=
  db.appointments.filter fun r => decide (r.userUid = uid)

/-- The request body of `PUT /api/clients/:id`. -/
structure ClientUpdate where
  name : Option String
  email : Option String
  phone : Option String
  color : Option String
  notes : Option String
  deriving DecidableEq

/-- `UPDATE clients SET name = COALESCE($3,name), email = $4, phone = $5,
color = $6, notes = $7 WHERE id = $1 AND user_uid = $2`. -/
def applyClientUpdate (p : ClientUpdate) (r : ClientRow) : ClientRow :=
  { r with
    name := p.name.getD r.name, email := p.email, phone := p.phone,
    color := p.color, notes := p.notes }

def clientMatch (id : Nat) (uid : String) (r : ClientRow) : Bool :=
  decide (r.id = id) && decide (r.userUid = uid)

def updateClientRoute (uid : String) (id : Nat) (p : ClientUpdate) (db : Db) :
    ApiStatus × Db :=
  if db.clients.any (clientMatch id uid) then
    (ApiStatus.ok,
      { db with clients := db.clients.map fun r =>
          if clientMatch id uid r then applyClientUpdate p r else r })
  else (ApiStatus.notFound, db)

/-- `DELETE /api/clients/:id`: `DELETE FROM clients WHERE id = $1 AND
user_uid = $2`; when a row is deleted, the foreign key
`appointments.client_id REFERENCES clients(id) ON DELETE CASCADE` removes
every appointment row referencing it — the cascade carries no `user_uid`
condition. -/
def deleteClientRoute (uid : String) (id : Nat) (db : Db) : ApiStatus × Db :=
  if db.clients.any (clientMatch id uid) then
    (ApiStatus.ok,
      { db with
        clients := db.clients.filter fun r => ! clientMatch id uid r,
        appointments := db.appointments.filter fun a => decide (¬ a.clientId = id) })
  else (ApiStatus.notFound, db)

structure ProviderUpdate where
  name : Option String
  email : Option String
  title : Option String
  color : Option String
  deriving DecidableEq

/-- `UPDATE providers SET name = COALESCE($3,name), email = $4, title = $5,
color = $6 WHERE id = $1 AND user_uid = $2`. -/
def applyProviderUpdate (p : ProviderUpdate) (r : ProviderRow) : ProviderRow :=
  { r with
    name := p.name.getD r.name, email := p.email, title := p.title,
    color := p.color }

def providerMatch (id : Nat) (uid : String) (r : ProviderRow) : Bool :=
  decide (r.id = id) && decide (r.userUid = uid)

def updateProviderRoute (uid : String) (id : Nat) (p : ProviderUpdate) (db : Db) :
    ApiStatus × Db :=
  if db.providers.any (providerMatch id uid) then
    (ApiStatus.ok,
      { db with providers := db.providers.map fun r =>
          if providerMatch id uid r then applyProviderUpdate p r else r })
  else (ApiStatus.notFound, db)

/-- `DELETE /api/providers/:id`; `provider_id REFERENCES providers(id)
ON DELETE SET NULL` nulls the reference on every appointment row
referencing the deleted provider. -/
def deleteProviderRoute (uid : String) (id : Nat) (db : Db) : ApiStatus × Db :=
  if db.providers.any (providerMatch id uid) then
    (ApiStatus.ok,
      { db with
        providers := db.providers.filter fun r => ! providerMatch id uid r,
        appointments := db.appointments.map fun a =>
          if a.providerId = some id then { a with providerId := none } else a })
  else (ApiStatus.notFound, db)

/-- The request body of `PUT /api/appointments/:id`. -/
structure AppointmentUpdate where
  clientId : Option Nat
  providerId : Option Nat
  start : Option Int
  endT : Option Int
  duration : Option Int
  priority : Option String
  status : Option String
  notes : Option String
  repeats : Option String
  deriving DecidableEq

/-- `UPDATE appointments SET client_id = COALESCE($3, client_id),
provider_id = $4, start_time = COALESCE($5, start_time),
end_time = COALESCE($6, end_time), duration_minutes = $7, priority = $8,
status = $9, notes = $10, repeats = $11 WHERE id = $1 AND user_uid = $2`. -/
def applyAppointmentUpdate (p : AppointmentUpdate) (r : AppointmentRow) :
    AppointmentRow :=
  { r with
    clientId := p.clientId.getD r.clientId, providerId := p.providerId,
    startTime := p.start.getD r.startTime, endTime := p.endT.getD r.endTime,
    durationMinutes := p.duration, priority := p.priority, status := p.status,
    notes := p.notes, repeats := p.repeats }

def appointmentMatch (id : Nat) (uid : String) (r : AppointmentRow) : Bool :=
  decide (r.id = id) && decide (r.userUid = uid)

def updateAppointmentRoute (uid : String) (id : Nat) (p : AppointmentUpdate)
    (db : Db) : ApiStatus × Db :=
  if db.appointments.any (appointmentMatch id uid) then
    (ApiStatus.ok,
      { db with appointments := db.appointments.map fun r =>
          if appointmentMatch id uid r then applyAppointmentUpdate p r else r })
  else (ApiStatus.notFound, db)

/-- `DELETE /api/appointments/:id`. -/
def deleteAppointmentRoute (uid : String) (id : Nat) (db : Db) : ApiStatus × Db :=
  if db.appointments.any (appointmentMatch id uid) then
    (ApiStatus.ok,
      { db with appointments :=
          db.appointments.filter fun r => ! appointmentMatch id uid r })
  else (ApiStatus.notFound, db)

/-- C8: the modelled CRUD routes of `server.js` operate only on the
caller's records.  The list endpoints return exactly the rows whose
`user_uid` is the caller's, and are unchanged by another user's rows;
update and delete requests whose target id is not owned by the caller
answer 404 and leave the database untouched. -/
theorem C8_crud_routes_owner_scoped (uid : String) (db : Db) (id : Nat)
    (c : ClientRow) (pv : ProviderRow) (ar : AppointmentRow)
    (cp : ClientUpdate) (pp : ProviderUpdate) (ap : AppointmentUpdate) :
    (∀ r, r ∈ listClients uid db ↔ r ∈ db.clients ∧ r.userUid = uid) ∧
    (∀ r, r ∈ listProviders uid db ↔ r ∈ db.providers ∧ r.userUid = uid) ∧
    (∀ r, r ∈ listAppointments uid db ↔ r ∈ db.appointments ∧ r.userUid = uid) ∧
    (¬ c.userUid = uid →
      listClients uid { db with clients := c :: db.clients } =
        listClients uid db) ∧
    (¬ pv.userUid = uid →
      listProviders uid { db with providers := pv :: db.providers } =
        listProviders uid db) ∧
    (¬ ar.userUid = uid →
      listAppointments uid { db with appointments := ar :: db.appointments } =
        listAppointments uid db) ∧
    ((∀ r ∈ db.clients, r.id = id → ¬ r.userUid = uid) →
      updateClientRoute uid id cp db = (ApiStatus.notFound, db) ∧
      deleteClientRoute uid id db = (ApiStatus.notFound, db)) ∧
    ((∀ r ∈ db.providers, r.id = id → ¬ r.userUid = uid) →
      updateProviderRoute uid id pp db = (ApiStatus.notFound, db) ∧
      deleteProviderRoute uid id db = (ApiStatus.notFound, db)) ∧
    ((∀ r ∈ db.appointments, r.id = id → ¬ r.userUid = uid) →
      updateAppointmentRoute uid id ap db = (ApiStatus.notFound, db) ∧
      deleteAppointmentRoute uid id db = (ApiStatus.notFound, db)) := by
  refine ⟨fun r => ?_, fun r => ?_, fun r => ?_, fun h => ?_, fun h => ?_,
    fun h => ?_, fun h => ?_, fun h => ?_, fun h => ?_⟩
  · simp [listClients, List.mem_filter]
  · simp [listProviders, List.mem_filter]
  · simp [listAppointments, List.mem_filter]
  · simp [listClients, List.filter_cons, h]
  · simp [listProviders, List.filter_cons, h]
  · simp [listAppointments, List.filter_cons, h]
  · have hany : db.clients.any (clientMatch id uid) = false := by
      rw [List.any_eq_false]
      intro r hr
      simp only [clientMatch, Bool.and_eq_true, decide_eq_true_eq, not_and]
      exact h r hr
    exact ⟨by simp [updateClientRoute, hany], by simp [deleteClientRoute, hany]⟩
  · have hany : db.providers.any (providerMatch id uid) = false := by
      rw [List.any_eq_false]
      intro r hr
      simp only [providerMatch, Bool.and_eq_true, decide_eq_true_eq, not_and]
      exact h r hr
    exact ⟨by simp [updateProviderRoute, hany],
      by simp [deleteProviderRoute, hany]⟩
  · have hany : db.appointments.any (appointmentMatch id uid) = false := by
      rw [List.any_eq_false]
      intro r hr
      simp only [appointmentMatch, Bool.and_eq_true, decide_eq_true_eq, not_and]
      exact h r hr
    exact ⟨by simp [updateAppointmentRoute, hany],
      by simp [deleteAppointmentRoute, hany]⟩

/-- A one-client database owned by user `"B"`, used to exercise the 404
branch of the routes for caller `"A"`. -/
def foreignDb : Db :=
  { clients := [⟨1, "B", "Bea", none, none, none, none⟩],
    providers := [], appointments := [] }

/-- Concrete instance of `C8_crud_routes_owner_scoped`: user `"A"`
deleting user `"B"`'s client gets a 404 and the database is unchanged. -/
theorem C8_witness :
    updateClientRoute "A" 1 ⟨some "X", none, none, none, none⟩ foreignDb =
      (ApiStatus.notFound, foreignDb) ∧
    deleteClientRoute "A" 1 foreignDb = (ApiStatus.notFound, foreignDb) :=
  (C8_crud_routes_owner_scoped "A" foreignDb 1
      ⟨0, "", "", none, none, none, none⟩
      ⟨0, "", "", none, none, none⟩
      ⟨0, "", 0, none, 0, 0, none, none, none, none, none⟩
      ⟨some "X", none, none, none, none⟩
      ⟨none, none, none, none⟩
      ⟨none, none, none, none, none, none, none, none, none⟩).2.2.2.2.2.2.1
    (by
      intro r hr
      simp only [foreignDb, List.mem_singleton] at hr
      subst hr
      decide)

/-! ## The Firestore path of `deleteClient` (browser client) -/

/-- A Firestore client document (fields relevant to deletion). -/
structure FsClientDoc where
  id : Nat
  ownerUid : String
  deriving DecidableEq

/-- A Firestore appointment document (fields relevant to deletion). -/
structure FsApptDoc where
  id : Nat
  ownerUid : String
  clientId : Nat
  deriving DecidableEq

/-- The Firestore collections touched by `deleteClient`. -/
structure FsDb where
  clients : List FsClientDoc
  appointments : List FsApptDoc
  deriving DecidableEq

/-- The Firestore branch of `deleteClient(clientId)`: first delete every
document matching `query(appointments, where('clientId','==',clientId),
where('ownerUid','==',uid))`, then `deleteDoc(doc(db,'clients',clientId))`
(the client deletion itself carries no owner condition). -/
def deleteClient (uid : String) (clientId : Nat) (db : FsDb) : FsDb :=
  { clients := db.clients.filter fun c => decide (¬ c.id = clientId),
    appointments := db.appointments.filter fun a =>
      decide (¬ (a.clientId = clientId ∧ a.ownerUid = uid)) }

/-- A database in which user `"A"` owns client 1 while user `"B"` owns an
appointment that references client 1 (the API lets an appointment be
created against any client id). -/
def crossRefDb : Db :=
  { clients := [⟨1, "A", "Ann", none, none, none, none⟩],
    providers := [],
    appointments := [⟨1, "B", 1, none, 0, 60, none, none, none, none, none⟩] }

/-- C7 counterexample: in the SQL backend, when user `"A"` deletes their
client, the `ON DELETE CASCADE` also removes user `"B"`'s appointment that
references that client — the cascade is not scoped to the current user, so
an appointment of a different user is modified. -/
theorem C7_counterexample :
    (⟨1, "B", 1, none, 0, 60, none, none, none, none, none⟩ : AppointmentRow)
        ∈ crossRefDb.appointments ∧
    ¬ ("B" : String) = "A" ∧
    ¬ (⟨1, "B", 1, none, 0, 60, none, none, none, none, none⟩ : AppointmentRow)
        ∈ (deleteClientRoute "A" 1 crossRefDb).2.appointments := by
  refine ⟨List.mem_singleton.mpr rfl, by decide, ?_⟩
  intro hmem
  have : (deleteClientRoute "A" 1 crossRefDb).2.appointments = [] := by
    simp [deleteClientRoute, crossRefDb, clientMatch]
  rw [this] at hmem
  exact List.not_mem_nil _ hmem

/-- C7 as amended: deleting a client removes that client and cascades to
the appointments referencing it, but the scoping differs between the two
backends.  Firestore path: exactly the appointments with this `clientId`
AND the current user's `ownerUid` are removed (other users' references
survive), and exactly the client documents with this id are removed.  SQL
path: when the caller owns the client, the route deletes that client row
and — via `ON DELETE CASCADE`, which carries no user condition — every
appointment row referencing it regardless of owner; provider rows are
never touched, and clients and appointments not involved are kept in both
paths. -/
theorem C7_delete_cascade_per_backend (uid : String) (cid : Nat)
    (fdb : FsDb) (db : Db) :
    (∀ a, a ∈ (deleteClient uid cid fdb).appointments ↔
      a ∈ fdb.appointments ∧ ¬ (a.clientId = cid ∧ a.ownerUid = uid)) ∧
    (∀ c, c ∈ (deleteClient uid cid fdb).clients ↔
      c ∈ fdb.clients ∧ ¬ c.id = cid) ∧
    (db.clients.any (clientMatch cid uid) = true →
      (∀ a, a ∈ (deleteClientRoute uid cid db).2.appointments ↔
        a ∈ db.appointments ∧ ¬ a.clientId = cid) ∧
      (∀ c, c ∈ (deleteClientRoute uid cid db).2.clients ↔
        c ∈ db.clients ∧ ¬ (c.id = cid ∧ c.userUid = uid))) ∧
    ((deleteClientRoute uid cid db).2.providers = db.providers) := by
  refine ⟨fun a => ?_, fun c => ?_, fun hown => ⟨fun a => ?_, fun c => ?_⟩, ?_⟩
  · simp [deleteClient, List.mem_filter]
    intro _
    tauto
  · simp [deleteClient, List.mem_filter]
  · simp [deleteClientRoute, hown, List.mem_filter]
  · simp [deleteClientRoute, hown, List.mem_filter, clientMatch, not_and]
    intro _
    tauto
  · unfold deleteClientRoute
    by_cases hown : db.clients.any (clientMatch cid uid) = true
    · simp [hown]
    · simp [hown]

/-- Concrete instance of `C7_delete_cascade_per_backend` on `crossRefDb`:
user `"A"` owns client 1, so the SQL delete cascades, and the membership
characterisation applies to user `"B"`'s appointment. -/
theorem C7_witness :
    ¬ ((⟨1, "B", 1, none, 0, 60, none, none, none, none, none⟩ : AppointmentRow)
        ∈ (deleteClientRoute "A" 1 crossRefDb).2.appointments) :=
  fun hmem =>
    (((C7_delete_cascade_per_backend "A" 1 ⟨[], []⟩ crossRefDb).2.2.1
        (by decide)).1 _ |>.mp hmem).2 rfl

/-! ## Calendar arithmetic (JS `Date`)

A `DateTime` is a proleptic-Gregorian calendar date (`year`, zero-based
`month`, one-based `day`) plus a minute-of-day, i.e. a JS `Date` at minute
granularity.  `dayNumber` is the number of days since 1 January of year 0,
so `1440 * dayNumber + minuteOfDay` is an affine rescaling of the JS time
value; `setDate`/`setMonth` normalisation is day-number arithmetic
followed by `dateOfDayNumber`. -/

def isLeap (y : Nat) : Bool :=
  (y % 4 = 0 && ¬ y % 100 = 0) || y % 400 = 0

def daysInYear (y : Nat) : Nat := if isLeap y then 366 else 365

/-- Days in zero-based month `m` of year `y`. -/
def daysInMonth (y m : Nat) : Nat :=
  match m with
  | 1 => if isLeap y then 29 else 28
  | 3 | 5 | 8 | 10 => 30
  | _ => 31

def daysBeforeYear : Nat → Nat
  | 0 => 0
  | y + 1 => daysBeforeYear y + daysInYear y

def daysBeforeMonth (y : Nat) : Nat → Nat
  | 0 => 0
  | m + 1 => daysBeforeMonth y m + daysInMonth y m

structure DateTime where
  year : Nat
  month : Nat
  day : Nat
  minuteOfDay : Nat
  deriving DecidableEq

/-- Days since 1 January of year 0 (the formula also matches JS `Date`
normalisation when `day` exceeds the month length). -/
def dayNumber (dt : DateTime) : Nat :=
  daysBeforeYear dt.year + daysBeforeMonth dt.year dt.month + (dt.day - 1)

/-- Absolute minute count, the (rescaled) JS time value; JS `Date`
comparisons compare this. -/
def toMin (dt : DateTime) : Nat := 1440 * dayNumber dt + dt.minuteOfDay

/-- Find the year containing absolute day `d`, returning the year and the
day offset within it; fuel-driven (any `fuel > d` is enough since every
year has at least 365 days). -/
def yearFromDay : Nat → Nat → Nat → Nat × Nat
  | 0, y, d => (y, d)
  | fuel + 1, y, d =>
      if d < daysInYear y then (y, d) else
        yearFromDay fuel (y + 1) (d - daysInYear y)

/-- Find the month containing day-of-year `d`, returning the month and the
day offset within it; 11 fuel steps reach December. -/
def monthFromDay (y : Nat) : Nat → Nat → Nat → Nat × Nat
  | 0, m, d => (m, d)
  | fuel + 1, m, d =>
      if d < daysInMonth y m then (m, d) else
        monthFromDay y fuel (m + 1) (d - daysInMonth y m)

/-- Inverse of `dayNumber`: the normalised calendar date of absolute day
`n`, with minute-of-day `mi`. -/
def ofDayNumber (n mi : Nat) : DateTime :=
  let p := yearFromDay (n + 1) 0 n
  let q := monthFromDay p.1 11 0 p.2
  ⟨p.1, q.1, q.2 + 1, mi⟩

/-- `d.setDate(d.getDate() + k)` (time-of-day preserved). -/
def addDays (dt : DateTime) (k : Nat) : DateTime :=
  ofDayNumber (dayNumber dt + k) dt.minuteOfDay

/-- `d.getDay()`: 0 = Sunday ... 6 = Saturday. -/
def getDay (dt : DateTime) : Nat := (dayNumber dt + 6) % 7

/-- `d.setMonth(d.getMonth() + k)`: advance the zero-based month by `k`,
carrying into the year, keeping the day-of-month and letting day overflow
normalise (e.g. Jan 31 + 1 month = Mar 3). -/
def addMonths (dt : DateTime) (k : Nat) : DateTime :=
  let t := dt.month + k
  let y := dt.year + t / 12
  let m := t % 12
  ofDayNumber (daysBeforeYear y + daysBeforeMonth y m + (dt.day - 1))
    dt.minuteOfDay

theorem yearFromDay_sum (fuel : Nat) : ∀ y d,
    daysBeforeYear (yearFromDay fuel y d).1 + (yearFromDay fuel y d).2 =
      daysBeforeYear y + d := by
  induction fuel with
  | zero => intro y d; rfl
  | succ fuel ih =>
      intro y d
      rw [yearFromDay]
      by_cases h : d < daysInYear y
      · rw [if_pos h]
      · rw [if_neg h]
        rw [ih (y + 1) (d - daysInYear y)]
        have : daysBeforeYear (y + 1) = daysBeforeYear y + daysInYear y := rfl
        rw [this]
        omega

theorem monthFromDay_sum (y : Nat) (fuel : Nat) : ∀ m d,
    daysBeforeMonth y (monthFromDay y fuel m d).1 +
        (monthFromDay y fuel m d).2 =
      daysBeforeMonth y m + d := by
  induction fuel with
  | zero => intro m d; rfl
  | succ fuel ih =>
      intro m d
      rw [monthFromDay]
      by_cases h : d < daysInMonth y m
      · rw [if_pos h]
      · rw [if_neg h]
        rw [ih (m + 1) (d - daysInMonth y m)]
        have : daysBeforeMonth y (m + 1) = daysBeforeMonth y m + daysInMonth y m := rfl
        rw [this]
        omega

theorem dayNumber_ofDayNumber (n mi : Nat) : dayNumber (ofDayNumber n mi) = n := by
  unfold ofDayNumber dayNumber
  dsimp only
  have hy := yearFromDay_sum (n + 1) 0 n
  have hm := monthFromDay_sum (yearFromDay (n + 1) 0 n).1 11 0
    (yearFromDay (n + 1) 0 n).2
  simp only [daysBeforeYear, daysBeforeMonth, Nat.zero_add] at hy hm
  omega

theorem minuteOfDay_ofDayNumber (n mi : Nat) :
    (ofDayNumber n mi).minuteOfDay = mi := by
  unfold ofDayNumber
  rfl

theorem dayNumber_addDays (dt : DateTime) (k : Nat) :
    dayNumber (addDays dt k) = dayNumber dt + k :=
  dayNumber_ofDayNumber _ _

theorem minuteOfDay_addDays (dt : DateTime) (k : Nat) :
    (addDays dt k).minuteOfDay = dt.minuteOfDay :=
  minuteOfDay_ofDayNumber _ _

theorem toMin_addDays (dt : DateTime) (k : Nat) :
    toMin (addDays dt k) = toMin dt + 1440 * k := by
  unfold toMin
  rw [dayNumber_addDays, minuteOfDay_addDays]
  ring

theorem getDay_addDays (dt : DateTime) (k : Nat) :
    getDay (addDays dt k) = (getDay dt + k) % 7 := by
  unfold getDay
  rw [dayNumber_addDays]
  omega

theorem daysBeforeMonth_twelve (y : Nat) : daysBeforeMonth y 12 = daysInYear y := by
  cases h : isLeap y <;>
    simp [daysBeforeMonth, daysInMonth, daysInYear, h]

theorem daysInMonth_pos (y m : Nat) : 0 < daysInMonth y m := by
  unfold daysInMonth
  split <;> first | omega | split_ifs <;> omega

theorem monthFromDay_fst_le (y : Nat) (fuel : Nat) : ∀ m d,
    (monthFromDay y fuel m d).1 ≤ m + fuel := by
  induction fuel with
  | zero => intro m d; simp [monthFromDay]
  | succ fuel ih =>
      intro m d
      rw [monthFromDay]
      by_cases h : d < daysInMonth y m
      · rw [if_pos h]; omega
      · rw [if_neg h]
        have := ih (m + 1) (d - daysInMonth y m)
        omega

theorem ofDayNumber_month_le (n mi : Nat) : (ofDayNumber n mi).month ≤ 11 := by
  unfold ofDayNumber
  dsimp only
  have := monthFromDay_fst_le (yearFromDay (n + 1) 0 n).1 11 0
    (yearFromDay (n + 1) 0 n).2
  omega

theorem dayNumber_addMonths_one (dt : DateTime) (h : dt.month < 12) :
    dayNumber (addMonths dt 1) =
      dayNumber dt + daysInMonth dt.year dt.month := by
  unfold addMonths
  rw [dayNumber_ofDayNumber]
  unfold dayNumber
  rcases Nat.lt_or_ge dt.month 11 with h10 | h11
  · have hdiv : (dt.month + 1) / 12 = 0 := Nat.div_eq_of_lt (by omega)
    have hmod : (dt.month + 1) % 12 = dt.month + 1 := Nat.mod_eq_of_lt (by omega)
    rw [hdiv, hmod]
    simp only [Nat.add_zero]
    have hstep : daysBeforeMonth dt.year (dt.month + 1) =
        daysBeforeMonth dt.year dt.month + daysInMonth dt.year dt.month := rfl
    omega
  · have hm : dt.month = 11 := by omega
    rw [hm]
    have hdiv : ((11:Nat) + 1) / 12 = 1 := by norm_num
    have hmod : ((11:Nat) + 1) % 12 = 0 := by norm_num
    rw [hdiv, hmod]
    have hYear : daysBeforeYear (dt.year + 1) =
        daysBeforeYear dt.year + daysInYear dt.year := rfl
    have h12 : daysBeforeMonth dt.year 12 = daysInYear dt.year :=
      daysBeforeMonth_twelve dt.year
    have h11e : daysBeforeMonth dt.year 12 =
        daysBeforeMonth dt.year 11 + daysInMonth dt.year 11 := rfl
    have h0 : daysBeforeMonth (dt.year + 1) 0 = 0 := rfl
    omega

theorem toMin_addMonths_one (dt : DateTime) (h : dt.month < 12) :
    toMin (addMonths dt 1) =
      toMin dt + 1440 * daysInMonth dt.year dt.month := by
  unfold toMin
  rw [dayNumber_addMonths_one dt h]
  have : (addMonths dt 1).minuteOfDay = dt.minuteOfDay :=
    minuteOfDay_ofDayNumber _ _
  rw [this]
  ring

theorem month_addDays_le (dt : DateTime) (k : Nat) :
    (addDays dt k).month ≤ 11 :=
  ofDayNumber_month_le _ _

theorem month_addMonths_le (dt : DateTime) (k : Nat) :
    (addMonths dt k).month ≤ 11 :=
  ofDayNumber_month_le _ _

/-- The `switch (appointmentData.repeats)` step of the expansion loop:
weekly adds 7 days, biweekly 14 days, monthly one calendar month
(`setMonth(getMonth() + 1)`).  For any other value the switch advances
nothing — the JS while-loop would then never terminate; the function is
only invoked when `repeats` is one of the three recurring kinds. -/
def recurStep (repeats : String) (d : DateTime) : DateTime :=
  if repeats = "weekly" then addDays d 7
  else if repeats = "biweekly" then addDays d 14
  else if repeats = "monthly" then addMonths d 1
  else d

/-- `repeats` is one of the three recurring kinds. -/
def isRecurring (repeats : String) : Prop :=
  repeats = "weekly" ∨ repeats = "biweekly" ∨ repeats = "monthly"

instance (repeats : String) : Decidable (isRecurring repeats) := by
  unfold isRecurring
  infer_instance

/-- One document pushed by the expansion loop: its start, and its end as
an absolute minute count
(`appointmentEnd.setMinutes(appointmentEnd.getMinutes() + duration)` adds
exactly `duration` minutes to the time value). -/
structure RecurringOcc where
  start : DateTime
  endMin : Nat
  deriving DecidableEq

def mkOcc (d : DateTime) (duration : Nat) : RecurringOcc :=
  ⟨d, toMin d + duration⟩

/-- The `while (currentDate <= endRecurrence)` loop of
`createRecurringAppointments`, fuel-driven; since the step strictly
advances the date, `horizon + 1` fuel always suffices. -/
def recurLoop (repeats : String) (duration horizon : Nat) :
    Nat → DateTime → List RecurringOcc
  | 0, _ => []
  | fuel + 1, cur =>
      if toMin cur ≤ horizon then
        mkOcc cur duration ::
          recurLoop repeats duration horizon fuel (recurStep repeats cur)
      else []

/-- `createRecurringAppointments(appointmentData)` (the Firestore `addDoc`
batch is elided; the returned list is the batch):
`endRecurrence = new Date(); endRecurrence.setMonth(getMonth() + 6)` with
`now` the creation time, and occurrences are generated from the
appointment's start while `currentDate <= endRecurrence`. -/
def createRecurringAppointments (now start : DateTime) (duration : Nat)
    (repeats : String) : List RecurringOcc :=
  recurLoop repeats duration (toMin (addMonths now 6))
    (toMin (addMonths now 6) + 1) start

theorem recurStep_weekly (d : DateTime) : recurStep "weekly" d = addDays d 7 := rfl

theorem recurStep_biweekly (d : DateTime) :
    recurStep "biweekly" d = addDays d 14 := rfl

theorem recurStep_monthly (d : DateTime) :
    recurStep "monthly" d = addMonths d 1 := rfl

theorem recurStep_month_le (repeats : String) (hr : isRecurring repeats)
    (d : DateTime) : (recurStep repeats d).month ≤ 11 := by
  rcases hr with rfl | rfl | rfl
  · rw [recurStep_weekly]; exact month_addDays_le d 7
  · rw [recurStep_biweekly]; exact month_addDays_le d 14
  · rw [recurStep_monthly]; exact month_addMonths_le d 1

theorem toMin_recurStep_gt (repeats : String) (hr : isRecurring repeats)
    (d : DateTime) (hd : d.month < 12) : toMin d < toMin (recurStep repeats d) := by
  rcases hr with rfl | rfl | rfl
  · rw [recurStep_weekly, toMin_addDays]; omega
  · rw [recurStep_biweekly, toMin_addDays]; omega
  · rw [recurStep_monthly, toMin_addMonths_one d hd]
    have := daysInMonth_pos d.year d.month
    omega

theorem iterate_recurStep_month (repeats : String) (hr : isRecurring repeats)
    (d : DateTime) (hd : d.month < 12) :
    ∀ i, ((recurStep repeats)^[i] d).month < 12 := by
  intro i
  induction i with
  | zero => exact hd
  | succ i ih =>
      rw [Function.iterate_succ_apply']
      have := recurStep_month_le repeats hr ((recurStep repeats)^[i] d)
      omega

theorem toMin_iterate_strictMono (repeats : String) (hr : isRecurring repeats)
    (d : DateTime) (hd : d.month < 12) :
    StrictMono fun i => toMin ((recurStep repeats)^[i] d) := by
  apply strictMono_nat_of_lt_succ
  intro i
  rw [Function.iterate_succ_apply']
  exact toMin_recurStep_gt repeats hr _ (iterate_recurStep_month repeats hr d hd i)

theorem toMin_le_iterate (repeats : String) (hr : isRecurring repeats)
    (d : DateTime) (hd : d.month < 12) (i : Nat) :
    toMin d ≤ toMin ((recurStep repeats)^[i] d) := by
  have := (toMin_iterate_strictMono repeats hr d hd).monotone (Nat.zero_le i)
  simpa using this

theorem recurLoop_sound (repeats : String) (duration horizon : Nat) :
    ∀ (fuel : Nat) (cur : DateTime),
      ∀ o ∈ recurLoop repeats duration horizon fuel cur,
        (∃ i, o.start = (recurStep repeats)^[i] cur) ∧
        toMin o.start ≤ horizon ∧ o.endMin = toMin o.start + duration := by
  intro fuel
  induction fuel with
  | zero => intro cur o ho; simp [recurLoop] at ho
  | succ fuel ih =>
      intro cur o ho
      rw [recurLoop] at ho
      by_cases h : toMin cur ≤ horizon
      · rw [if_pos h] at ho
        rcases List.mem_cons.mp ho with rfl | ho'
        · exact ⟨⟨0, rfl⟩, h, rfl⟩
        · obtain ⟨⟨i, hi⟩, hb, he⟩ := ih (recurStep repeats cur) o ho'
          exact ⟨⟨i + 1, by rw [Function.iterate_succ_apply]; exact hi⟩, hb, he⟩
      · rw [if_neg h] at ho
        simp at ho

theorem recurLoop_complete (repeats : String) (hr : isRecurring repeats)
    (duration horizon : Nat) :
    ∀ (fuel : Nat) (cur : DateTime), cur.month < 12 →
      horizon + 1 ≤ toMin cur + fuel →
      ∀ i, toMin ((recurStep repeats)^[i] cur) ≤ horizon →
        (recurStep repeats)^[i] cur ∈
          (recurLoop repeats duration horizon fuel cur).map RecurringOcc.start := by
  intro fuel
  induction fuel with
  | zero =>
      intro cur hm hfuel i hi
      have := toMin_le_iterate repeats hr cur hm i
      omega
  | succ fuel ih =>
      intro cur hm hfuel i hi
      have hcur : toMin cur ≤ horizon := by
        have := toMin_le_iterate repeats hr cur hm i
        omega
      rw [recurLoop, if_pos hcur]
      cases i with
      | zero =>
          simp [mkOcc]
      | succ i =>
          rw [Function.iterate_succ_apply] at hi ⊢
          have hm' : (recurStep repeats cur).month < 12 := by
            have := recurStep_month_le repeats hr cur
            omega
          have hfuel' : horizon + 1 ≤ toMin (recurStep repeats cur) + fuel := by
            have := toMin_recurStep_gt repeats hr cur hm
            omega
          have := ih (recurStep repeats cur) hm' hfuel' i hi
          simp only [List.map_cons, List.mem_cons]
          exact Or.inr this

theorem recurLoop_chain (repeats : String) (hr : isRecurring repeats)
    (duration horizon : Nat) :
    ∀ (fuel : Nat) (cur : DateTime), cur.month < 12 →
      ((recurLoop repeats duration horizon fuel cur).map
        fun o => toMin o.start).Chain' (· < ·) := by
  intro fuel
  induction fuel with
  | zero => intro cur _; simp [recurLoop]
  | succ fuel ih =>
      intro cur hm
      rw [recurLoop]
      by_cases h : toMin cur ≤ horizon
      · rw [if_pos h]
        rw [List.map_cons]
        apply List.chain'_cons'.mpr
        constructor
        · intro y hy
          have hmem := List.mem_of_mem_head? hy
          obtain ⟨o, ho, rfl⟩ := List.mem_map.mp hmem
          obtain ⟨⟨i, hi⟩, -, -⟩ :=
            recurLoop_sound repeats duration horizon fuel
              (recurStep repeats cur) o ho
          have hm' : (recurStep repeats cur).month < 12 := by
            have := recurStep_month_le repeats hr cur
            omega
          have h1 : toMin (recurStep repeats cur) ≤ toMin o.start := by
            rw [hi]
            exact toMin_le_iterate repeats hr _ hm' i
          have h2 := toMin_recurStep_gt repeats hr cur hm
          simp only [mkOcc]
          omega
        · have hm' : (recurStep repeats cur).month < 12 := by
            have := recurStep_month_le repeats hr cur
            omega
          exact ih (recurStep repeats cur) hm'
      · rw [if_neg h]
        simp

/-- C2: creating a weekly/biweekly/monthly appointment expands it into one
document per occurrence: every produced occurrence is an iterate of the
step (7 days, 14 days, or one calendar month) from the appointment's
start; every occurrence starts no later than the 6-month horizon
`setMonth(getMonth() + 6)` from the creation time and every step-iterate
inside the horizon is produced (none beyond it); occurrence starts are
strictly increasing (no duplicates); each occurrence's end is its start
plus the duration in minutes; and the three steps advance the date by
exactly 7 days, 14 days, and one calendar month respectively. -/
theorem C2_recurring_expansion (now start : DateTime) (duration : Nat)
    (repeats : String) (hr : isRecurring repeats) (hm : start.month < 12) :
    (∀ o ∈ createRecurringAppointments now start duration repeats,
        toMin o.start ≤ toMin (addMonths now 6) ∧
        o.endMin = toMin o.start + duration ∧
        ∃ i, o.start = (recurStep repeats)^[i] start) ∧
    (∀ i, toMin ((recurStep repeats)^[i] start) ≤ toMin (addMonths now 6) →
        (recurStep repeats)^[i] start ∈
          (createRecurringAppointments now start duration repeats).map
            RecurringOcc.start) ∧
    ((createRecurringAppointments now start duration repeats).map
        fun o => toMin o.start).Chain' (· < ·) ∧
    (∀ d : DateTime, toMin (recurStep "weekly" d) = toMin d + 1440 * 7) ∧
    (∀ d : DateTime, toMin (recurStep "biweekly" d) = toMin d + 1440 * 14) ∧
    (∀ d : DateTime, d.month < 12 →
        toMin (recurStep "monthly" d) =
          toMin d + 1440 * daysInMonth d.year d.month) := by
  refine ⟨fun o ho => ?_, fun i hi => ?_, ?_, fun d => ?_, fun d => ?_,
    fun d hd => ?_⟩
  · obtain ⟨hex, hb, he⟩ := recurLoop_sound repeats duration
      (toMin (addMonths now 6)) (toMin (addMonths now 6) + 1) start o ho
    exact ⟨hb, he, hex⟩
  · exact recurLoop_complete repeats hr duration (toMin (addMonths now 6))
      (toMin (addMonths now 6) + 1) start hm (by omega) i hi
  · exact recurLoop_chain repeats hr duration (toMin (addMonths now 6))
      (toMin (addMonths now 6) + 1) start hm
  · rw [recurStep_weekly, toMin_addDays]
  · rw [recurStep_biweekly, toMin_addDays]
  · exact toMin_addMonths_one d hd

/-- Concrete instance of `C2_recurring_expansion`: a weekly appointment on
1 January of year 1 at 10:00, created the same day. -/
theorem C2_witness :
    isRecurring "weekly" ∧ (⟨1, 0, 1, 600⟩ : DateTime).month < 12 ∧
    (∀ o ∈ createRecurringAppointments ⟨1, 0, 1, 600⟩ ⟨1, 0, 1, 600⟩ 50 "weekly",
        toMin o.start ≤ toMin (addMonths ⟨1, 0, 1, 600⟩ 6) ∧
        o.endMin = toMin o.start + 50 ∧
        ∃ i, o.start = (recurStep "weekly")^[i] ⟨1, 0, 1, 600⟩) :=
  ⟨Or.inl rfl, by decide,
    (C2_recurring_expansion ⟨1, 0, 1, 600⟩ ⟨1, 0, 1, 600⟩ 50 "weekly"
      (Or.inl rfl) (by decide)).1⟩

/-- The lowercase weekday names, indexed by JS `getDay()` (0 = Sunday). -/
def weekdays : List (List Char) :=
  ["sunday".toList, "monday".toList, "tuesday".toList, "wednesday".toList,
   "thursday".toList, "friday".toList, "saturday".toList]

/-- `weekdays.indexOf(word)`, with `none` for JS `-1`. -/
def weekdayIndex (w : List Char) : Option Nat :=
  weekdays.indexOf? w

/-- `parseRelativeDate(dateString)`.  The source lowercases and trims its
input and matches the regexes `^next\s+(\w+)$` / `^this\s+(\w+)$`; inputs
are modelled as already-normalised char lists and the regexes as the
literal prefixes `"next "` / `"this "` followed by the captured word.
`jsDate` stands for the final `new Date(dateString)` fallback (`none` for
an Invalid Date) and `today` for `new Date()`.  The JS index arithmetic
`(dayIndex - currentDay + 7) % 7` is written `(dayIndex + 7 - currentDay)
% 7`, identical on the 0..6 ranges involved. -/
def parseRelativeDate (jsDate : List Char → Option DateTime) (today : DateTime)
    (dateStr : List Char) : Option DateTime :=
  if dateStr = "today".toList then some today
  else if dateStr = "tomorrow".toList then some (addDays today 1)
  else if "next ".toList.isPrefixOf dateStr then
    match weekdayIndex (dateStr.drop 5) with
    | some dayIndex =>
        let currentDay := getDay today
        let daysUntilTargetDay := (dayIndex + 7 - currentDay) % 7
        let daysToAdd := if daysUntilTargetDay = 0 then 7
          else daysUntilTargetDay + 7
        some (addDays today daysToAdd)
    | none => jsDate dateStr
  else if "this ".toList.isPrefixOf dateStr then
    match weekdayIndex (dateStr.drop 5) with
    | some dayIndex =>
        let currentDay := getDay today
        let daysUntilTargetDay := (dayIndex + 7 - currentDay) % 7
        if daysUntilTargetDay = 0 then some today
        else some (addDays today daysUntilTargetDay)
    | none => jsDate dateStr
  else
    match weekdayIndex dateStr with
    | some dayIndex => some (addDays today ((dayIndex + 7 - getDay today) % 7))
    | none => jsDate dateStr

/-- `fallbackDateParsing(dateString)`: same input conventions.  Note
`(dayIndex - today.getDay() + 7) % 7 || 7` for "next", the early
`return null` for a past weekday under "this", and
`daysToAdd < 0 ? daysToAdd + 7 : daysToAdd` for a plain weekday. -/
def fallbackDateParsing (jsDate : List Char → Option DateTime) (today : DateTime)
    (dateStr : List Char) : Option DateTime :=
  if "next ".toList.isPrefixOf dateStr then
    match weekdayIndex (dateStr.drop 5) with
    | some dayIndex =>
        let d := (dayIndex + 7 - getDay today) % 7
        let daysToAdd := if d = 0 then 7 else d
        some (addDays today daysToAdd)
    | none => jsDate dateStr
  else if "this ".toList.isPrefixOf dateStr then
    match weekdayIndex (dateStr.drop 5) with
    | some dayIndex =>
        if dayIndex < getDay today then none
        else some (addDays today (dayIndex - getDay today))
    | none => jsDate dateStr
  else
    match weekdayIndex dateStr with
    | some dayIndex =>
        if dayIndex < getDay today then
          some (addDays today (dayIndex + 7 - getDay today))
        else some (addDays today (dayIndex - getDay today))
    | none => jsDate dateStr

theorem isPrefixOf_append (l w : List Char) : l.isPrefixOf (l ++ w) = true := by
  rw [List.isPrefixOf_iff_prefix]
  exact List.prefix_append l w

theorem drop_five_next (w : List Char) : ("next ".toList ++ w).drop 5 = w := by
  have : (5 : Nat) = ("next ".toList).length := rfl
  rw [this, List.drop_left]

theorem drop_five_this (w : List Char) : ("this ".toList ++ w).drop 5 = w := by
  have : (5 : Nat) = ("this ".toList).length := rfl
  rw [this, List.drop_left]

theorem parseRelativeDate_next_spec (jsDate : List Char → Option DateTime)
    (today : DateTime) (w : List Char) (i : Nat)
    (hne1 : ¬ ("next ".toList ++ w = "today".toList))
    (hne2 : ¬ ("next ".toList ++ w = "tomorrow".toList))
    (hidx : weekdayIndex w = some i) :
    parseRelativeDate jsDate today ("next ".toList ++ w) =
      some (addDays today
        (if (i + 7 - getDay today) % 7 = 0 then 7
         else (i + 7 - getDay today) % 7 + 7)) := by
  unfold parseRelativeDate
  rw [if_neg hne1, if_neg hne2, if_pos (isPrefixOf_append _ w),
    drop_five_next, hidx]

theorem parseRelativeDate_this_spec (jsDate : List Char → Option DateTime)
    (today : DateTime) (w : List Char) (i : Nat)
    (hne1 : ¬ ("this ".toList ++ w = "today".toList))
    (hne2 : ¬ ("this ".toList ++ w = "tomorrow".toList))
    (hidx : weekdayIndex w = some i) :
    parseRelativeDate jsDate today ("this ".toList ++ w) =
      (if (i + 7 - getDay today) % 7 = 0 then some today
       else some (addDays today ((i + 7 - getDay today) % 7))) := by
  unfold parseRelativeDate
  have hnp : ("next ".toList.isPrefixOf ("this ".toList ++ w)) = false := rfl
  rw [if_neg hne1, if_neg hne2, hnp, if_neg Bool.false_ne_true,
    if_pos (isPrefixOf_append _ w), drop_five_this, hidx]

theorem parseRelativeDate_plain_spec (jsDate : List Char → Option DateTime)
    (today : DateTime) (w : List Char) (i : Nat)
    (hne1 : ¬ (w = "today".toList)) (hne2 : ¬ (w = "tomorrow".toList))
    (hnp1 : "next ".toList.isPrefixOf w = false)
    (hnp2 : "this ".toList.isPrefixOf w = false)
    (hidx : weekdayIndex w = some i) :
    parseRelativeDate jsDate today w =
      some (addDays today ((i + 7 - getDay today) % 7)) := by
  unfold parseRelativeDate
  rw [if_neg hne1, if_neg hne2, hnp1, if_neg Bool.false_ne_true, hnp2,
    if_neg Bool.false_ne_true, hidx]

theorem fallbackDateParsing_next_spec (jsDate : List Char → Option DateTime)
    (today : DateTime) (w : List Char) (i : Nat)
    (hidx : weekdayIndex w = some i) :
    fallbackDateParsing jsDate today ("next ".toList ++ w) =
      some (addDays today
        (if (i + 7 - getDay today) % 7 = 0 then 7
         else (i + 7 - getDay today) % 7)) := by
  unfold fallbackDateParsing
  rw [if_pos (isPrefixOf_append _ w), drop_five_next, hidx]

theorem fallbackDateParsing_this_spec (jsDate : List Char → Option DateTime)
    (today : DateTime) (w : List Char) (i : Nat)
    (hidx : weekdayIndex w = some i) :
    fallbackDateParsing jsDate today ("this ".toList ++ w) =
      (if i < getDay today then none
       else some (addDays today (i - getDay today))) := by
  unfold fallbackDateParsing
  have hnp : ("next ".toList.isPrefixOf ("this ".toList ++ w)) = false := rfl
  rw [hnp, if_neg Bool.false_ne_true, if_pos (isPrefixOf_append _ w),
    drop_five_this, hidx]

theorem fallbackDateParsing_plain_spec (jsDate : List Char → Option DateTime)
    (today : DateTime) (w : List Char) (i : Nat)
    (hnp1 : "next ".toList.isPrefixOf w = false)
    (hnp2 : "this ".toList.isPrefixOf w = false)
    (hidx : weekdayIndex w = some i) :
    fallbackDateParsing jsDate today w =
      (if i < getDay today then some (addDays today (i + 7 - getDay today))
       else some (addDays today (i - getDay today))) := by
  unfold fallbackDateParsing
  rw [hnp1, if_neg Bool.false_ne_true, hnp2, if_neg Bool.false_ne_true, hidx]

/-- C4: for every weekday name `w` (the `i`-th entry of `weekdays`) and
every current date, `parseRelativeDate("next " + w)` lands on weekday `w`,
strictly after today, between 7 and 13 days ahead inclusive — exactly 7
when `w` is today's weekday, otherwise 8 to 13 — and
`parseRelativeDate("this " + w)` lands on weekday `w` between 0 and 6 days
ahead, returning today itself when `w` is today's weekday. -/
theorem C4_parseRelativeDate_weekdays (jsDate : List Char → Option DateTime)
    (today : DateTime) (w : List Char) (i : Nat)
    (hw : weekdays.get? i = some w) :
    (∃ D, parseRelativeDate jsDate today ("next ".toList ++ w) =
        some (addDays today D) ∧
      getDay (addDays today D) = i ∧
      dayNumber (addDays today D) = dayNumber today + D ∧
      7 ≤ D ∧ D ≤ 13 ∧ (D = 7 ↔ i = getDay today)) ∧
    (∃ r D, parseRelativeDate jsDate today ("this ".toList ++ w) =
        some r ∧
      getDay r = i ∧ dayNumber r = dayNumber today + D ∧ D ≤ 6 ∧
      (i = getDay today → r = today ∧ D = 0)) := by
  have hc : getDay today < 7 := Nat.mod_lt _ (by norm_num)
  have hi : i < 7 := by
    by_contra hge
    push_neg at hge
    rw [List.get?_eq_none.mpr (by simpa [weekdays] using hge)] at hw
    cases hw
  have hside : weekdayIndex w = some i ∧
      ¬ ("next ".toList ++ w = "today".toList) ∧
      ¬ ("next ".toList ++ w = "tomorrow".toList) ∧
      ¬ ("this ".toList ++ w = "today".toList) ∧
      ¬ ("this ".toList ++ w = "tomorrow".toList) := by
    interval_cases i <;>
      (simp only [weekdays, List.get?, Option.some_inj] at hw) <;>
      (subst hw; decide)
  obtain ⟨hwi, hne1, hne2, hne3, hne4⟩ := hside
  constructor
  · refine ⟨if (i + 7 - getDay today) % 7 = 0 then 7
        else (i + 7 - getDay today) % 7 + 7,
      parseRelativeDate_next_spec jsDate today _ i hne1 hne2 hwi,
      ?_, ?_, ?_, ?_, ?_⟩
    · rw [getDay_addDays]
      split_ifs with h0 <;> omega
    · rw [dayNumber_addDays]
    · split_ifs <;> omega
    · split_ifs <;> omega
    · split_ifs with h0 <;> omega
  · by_cases hd : (i + 7 - getDay today) % 7 = 0
    · refine ⟨today, 0, ?_, by omega, by omega, by omega,
        fun _ => ⟨rfl, rfl⟩⟩
      rw [parseRelativeDate_this_spec jsDate today _ i hne3 hne4 hwi, if_pos hd]
    · refine ⟨addDays today ((i + 7 - getDay today) % 7),
        (i + 7 - getDay today) % 7, ?_, ?_, dayNumber_addDays today _,
        by omega, fun h => absurd hd (by omega)⟩
      · rw [parseRelativeDate_this_spec jsDate today _ i hne3 hne4 hwi,
          if_neg hd]
      · rw [getDay_addDays]
        omega

/-- Concrete instance of `C4_parseRelativeDate_weekdays` at `w = friday`
with today = Monday, 1 January of year 1. -/
theorem C4_witness :
    ∃ D, parseRelativeDate (fun _ => none) ⟨1, 0, 1, 0⟩
        ("next ".toList ++ "friday".toList) =
      some (addDays ⟨1, 0, 1, 0⟩ D) ∧
    getDay (addDays ⟨1, 0, 1, 0⟩ D) = 5 ∧
    dayNumber (addDays ⟨1, 0, 1, 0⟩ D) = dayNumber ⟨1, 0, 1, 0⟩ + D ∧
    7 ≤ D ∧ D ≤ 13 ∧ (D = 7 ↔ 5 = getDay ⟨1, 0, 1, 0⟩) :=
  (C4_parseRelativeDate_weekdays (fun _ => none) ⟨1, 0, 1, 0⟩
    "friday".toList 5 (by decide)).1

/-- C9 counterexample: with today = Monday 1 January of year 1,
`parseRelativeDate` sends "next friday" 11 days ahead while
`fallbackDateParsing` sends it only 4 days ahead — the two parsers
disagree. -/
theorem C9_counterexample :
    parseRelativeDate (fun _ => none) ⟨1, 0, 1, 0⟩ "next friday".toList ≠
      fallbackDateParsing (fun _ => none) ⟨1, 0, 1, 0⟩ "next friday".toList := by
  decide

/-- C9 as amended: the two date parsers agree on plain-weekday inputs and
on literal-date inputs (both defer to the same native parse), and on
"next/this <weekday>" inputs exactly when the weekday is compatible with
today: results are time-value-equal for "next w" iff `w` is today's
weekday (otherwise `parseRelativeDate` goes 8-13 days out but
`fallbackDateParsing` only 1-6), and for "this w" iff `w`'s index is at
least today's (otherwise `fallbackDateParsing` returns null while
`parseRelativeDate` returns next week's occurrence). -/
theorem C9_parse_vs_fallback (jsDate : List Char → Option DateTime)
    (today : DateTime) (w : List Char) (i : Nat)
    (hw : weekdays.get? i = some w) (s : List Char) :
    (parseRelativeDate jsDate today w = fallbackDateParsing jsDate today w) ∧
    ((parseRelativeDate jsDate today ("next ".toList ++ w)).map toMin =
        (fallbackDateParsing jsDate today ("next ".toList ++ w)).map toMin ↔
      i = getDay today) ∧
    ((parseRelativeDate jsDate today ("this ".toList ++ w)).map toMin =
        (fallbackDateParsing jsDate today ("this ".toList ++ w)).map toMin ↔
      getDay today ≤ i) ∧
    (weekdayIndex s = none → ¬ (s = "today".toList) →
      ¬ (s = "tomorrow".toList) →
      "next ".toList.isPrefixOf s = false →
      "this ".toList.isPrefixOf s = false →
      parseRelativeDate jsDate today s = jsDate s ∧
      fallbackDateParsing jsDate today s = jsDate s) := by
  have hc : getDay today < 7 := Nat.mod_lt _ (by norm_num)
  have hi : i < 7 := by
    by_contra hge
    push_neg at hge
    rw [List.get?_eq_none.mpr (by simpa [weekdays] using hge)] at hw
    cases hw
  have hside : weekdayIndex w = some i ∧
      ¬ ("next ".toList ++ w = "today".toList) ∧
      ¬ ("next ".toList ++ w = "tomorrow".toList) ∧
      ¬ ("this ".toList ++ w = "today".toList) ∧
      ¬ ("this ".toList ++ w = "tomorrow".toList) ∧
      ¬ (w = "today".toList) ∧ ¬ (w = "tomorrow".toList) ∧
      "next ".toList.isPrefixOf w = false ∧
      "this ".toList.isPrefixOf w = false := by
    interval_cases i <;>
      (simp only [weekdays, List.get?, Option.some_inj] at hw) <;>
      (subst hw; decide)
  obtain ⟨hwi, hne1, hne2, hne3, hne4, hne5, hne6, hnp1, hnp2⟩ := hside
  refine ⟨?_, ?_, ?_, fun hs hS1 hS2 hp1 hp2 => ?_⟩
  · rw [parseRelativeDate_plain_spec jsDate today w i hne5 hne6 hnp1 hnp2 hwi,
      fallbackDateParsing_plain_spec jsDate today w i hnp1 hnp2 hwi]
    split_ifs with hlt
    · rw [Nat.mod_eq_of_lt (by omega)]
    · rw [show i + 7 - getDay today = (i - getDay today) + 7 by omega,
        Nat.add_mod_right, Nat.mod_eq_of_lt (by omega)]
  · rw [parseRelativeDate_next_spec jsDate today w i hne1 hne2 hwi,
      fallbackDateParsing_next_spec jsDate today w i hwi]
    split_ifs with hd
    · constructor
      · intro _; omega
      · intro _; rfl
    · simp only [Option.map_some', Option.some_inj, toMin_addDays]
      constructor
      · intro h; exfalso; omega
      · intro h; exfalso; omega
  · rw [parseRelativeDate_this_spec jsDate today w i hne3 hne4 hwi,
      fallbackDateParsing_this_spec jsDate today w i hwi]
    by_cases hlt : i < getDay today
    · have hd : ¬ (i + 7 - getDay today) % 7 = 0 := by omega
      rw [if_neg hd, if_pos hlt]
      simp only [Option.map_some', Option.map_none']
      constructor
      · intro h; cases h
      · intro h; exfalso; omega
    · rw [if_neg hlt]
      by_cases hd : (i + 7 - getDay today) % 7 = 0
      · rw [if_pos hd]
        have hieq : i = getDay today := by omega
        simp only [Option.map_some', Option.some_inj, toMin_addDays]
        constructor
        · intro _; omega
        · intro _; omega
      · rw [if_neg hd]
        simp only [Option.map_some', Option.some_inj, toMin_addDays]
        constructor
        · intro _; omega
        · intro _; omega
  · constructor
    · unfold parseRelativeDate
      rw [if_neg hS1, if_neg hS2, hp1, if_neg Bool.false_ne_true, hp2,
        if_neg Bool.false_ne_true, hs]
    · unfold fallbackDateParsing
      rw [hp1, if_neg Bool.false_ne_true, hp2, if_neg Bool.false_ne_true, hs]

/-- Concrete instance of `C9_parse_vs_fallback`: with today = Monday, the
two parsers agree (up to time value) on "next monday". -/
theorem C9_witness :
    (parseRelativeDate (fun _ => none) ⟨1, 0, 1, 0⟩
        ("next ".toList ++ "monday".toList)).map toMin =
      (fallbackDateParsing (fun _ => none) ⟨1, 0, 1, 0⟩
        ("next ".toList ++ "monday".toList)).map toMin :=
  (C9_parse_vs_fallback (fun _ => none) ⟨1, 0, 1, 0⟩ "monday".toList 1
    (by decide) []).2.1.mpr (by decide)

/-! ## `levenshteinDistance` (fuzzy client-name matching)

The source builds the full DP matrix: `matrix[i][0] = i`, `matrix[0][j] =
j`, and
`matrix[i][j] = (str2[i-1] === str1[j-1]) ? matrix[i-1][j-1] :
min(matrix[i-1][j-1]+1, matrix[i][j-1]+1, matrix[i-1][j]+1)`,
returning `matrix[str2.length][str1.length]`.  It is embedded row by row:
`levRowGo` computes one inner `j`-loop (carrying the diagonal, the cell
to the left, and the rest of the previous row), `levDpStep` prepends the
`matrix[i][0] = i` seed, and `levDpLoop` is the outer `i`-loop. -/

/-- The recursive (suffix-peeling) Levenshtein distance, used as the
specification the matrix is proved against. -/
def lev : List Char → List Char → Nat
  | [], t => t.length
  | s, [] => s.length
  | b :: s, a :: t =>
      if b = a then lev s t
      else 1 + min (lev s t) (min (lev (b :: s) t) (lev s (a :: t)))

/-- Inner loop of the DP: `c2` is `str2.charAt(i-1)`, the list argument
the remaining characters of `str1`, then the diagonal cell
`matrix[i-1][j-1]`, the cell to the left `matrix[i][j-1]`, and the rest
`matrix[i-1][j..]` of the previous row. -/
def levRowGo (c2 : Char) : List Char → Nat → Nat → List Nat → List Nat
  | [], _, _, _ => []
  | _ :: _, _, _, [] => []
  | a :: s1, diag, left, pj :: prest =>
      let v := if c2 = a then diag
        else min (min (diag + 1) (left + 1)) (pj + 1)
      v :: levRowGo c2 s1 pj v prest

/-- One outer iteration: seed `matrix[i][0] = i` and run the inner loop. -/
def levDpStep (s1 : List Char) (b : Char) (i : Nat) : List Nat → List Nat
  | [] => [i]
  | d :: rest => i :: levRowGo b s1 d i rest

/-- The outer `i`-loop over the characters of `str2`. -/
def levDpLoop (s1 : List Char) : List Char → Nat → List Nat → List Nat
  | [], _, prev => prev
  | b :: s2, i, prev => levDpLoop s1 s2 (i + 1) (levDpStep s1 b (i + 1) prev)

/-- `levenshteinDistance(str1, str2)`: run the DP and read off
`matrix[str2.length][str1.length]` (the last cell of the last row). -/
def levenshteinDistance (str1 str2 : List Char) : Nat :=
  (levDpLoop str1 str2 0 (List.range (str1.length + 1))).getLastD 0

theorem lev_nil_left (t : List Char) : lev [] t = t.length := by
  cases t <;> simp [lev]

theorem lev_nil_right (s : List Char) : lev s [] = s.length := by
  cases s <;> simp [lev]

theorem lev_cons_cons (b a : Char) (s t : List Char) :
    lev (b :: s) (a :: t) =
      if b = a then lev s t
      else 1 + min (lev s t) (min (lev (b :: s) t) (lev s (a :: t))) := by
  rw [lev]

/-- The row of `lev v ·` values at columns `t, a₁ :: t, a₂ :: a₁ :: t, ...`
as the remaining `str1` characters `a₁, a₂, ...` are consumed. -/
def levRowFrom (v t : List Char) : List Char → List Nat
  | [] => []
  | a :: rest => lev v (a :: t) :: levRowFrom v (a :: t) rest

theorem levRowGo_spec (b : Char) :
    ∀ (s1rem : List Char) (t v : List Char),
      levRowGo b s1rem (lev v t) (lev (b :: v) t) (levRowFrom v t s1rem) =
        levRowFrom (b :: v) t s1rem := by
  intro s1rem
  induction s1rem with
  | nil => intro t v; rfl
  | cons a rest ih =>
      intro t v
      show levRowGo b (a :: rest) (lev v t) (lev (b :: v) t)
          (lev v (a :: t) :: levRowFrom v (a :: t) rest) = _
      rw [levRowGo]
      have hv : (if b = a then lev v t
          else min (min (lev v t + 1) (lev (b :: v) t + 1))
            (lev v (a :: t) + 1)) = lev (b :: v) (a :: t) := by
        rw [lev_cons_cons]
        by_cases hba : b = a
        · rw [if_pos hba, if_pos hba]
        · rw [if_neg hba, if_neg hba]
          omega
      show (if b = a then lev v t
          else min (min (lev v t + 1) (lev (b :: v) t + 1))
            (lev v (a :: t) + 1)) ::
          levRowGo b rest (lev v (a :: t))
            (if b = a then lev v t
             else min (min (lev v t + 1) (lev (b :: v) t + 1))
               (lev v (a :: t) + 1))
            (levRowFrom v (a :: t) rest) = _
      rw [hv, ih (a :: t) v]
      rfl

theorem levRowFrom_nil_left :
    ∀ (s1rem t : List Char),
      levRowFrom [] t s1rem = List.range' (t.length + 1) s1rem.length := by
  intro s1rem
  induction s1rem with
  | nil => intro t; rfl
  | cons a rest ih =>
      intro t
      rw [levRowFrom]
      simp only [List.length_cons]
      rw [List.range'_succ, lev_nil_left]
      have := ih (a :: t)
      simp only [List.length_cons] at this
      rw [this]
      rfl

theorem levRowFrom_getLastD :
    ∀ (s1rem v t : List Char) (d : Nat),
      (lev v t :: levRowFrom v t s1rem).getLastD d =
        lev v (s1rem.reverse ++ t) := by
  intro s1rem
  induction s1rem with
  | nil => intro v t d; rfl
  | cons a rest ih =>
      intro v t d
      rw [levRowFrom, List.getLastD_cons, ih v (a :: t) (lev v t)]
      simp

theorem levDpLoop_spec (s1 : List Char) :
    ∀ (s2rem v : List Char),
      levDpLoop s1 s2rem v.length (lev v [] :: levRowFrom v [] s1) =
        lev (s2rem.reverse ++ v) [] ::
          levRowFrom (s2rem.reverse ++ v) [] s1 := by
  intro s2rem
  induction s2rem with
  | nil => intro v; rfl
  | cons b s2rem ih =>
      intro v
      rw [levDpLoop]
      have hstep : levDpStep s1 b (v.length + 1)
          (lev v [] :: levRowFrom v [] s1) =
          lev (b :: v) [] :: levRowFrom (b :: v) [] s1 := by
        rw [levDpStep]
        have h1 : v.length + 1 = lev (b :: v) [] := by
          rw [lev_nil_right]
          rfl
        rw [h1, levRowGo_spec b s1 [] v]
      rw [hstep]
      have h2 : v.length + 1 = (b :: v).length := rfl
      rw [h2, ih (b :: v)]
      simp

theorem levenshteinDistance_eq_lev (str1 str2 : List Char) :
    levenshteinDistance str1 str2 = lev str2.reverse str1.reverse := by
  unfold levenshteinDistance
  have hrow0 : List.range (str1.length + 1) =
      lev ([] : List Char) [] :: levRowFrom [] [] str1 := by
    rw [levRowFrom_nil_left str1 [], lev_nil_left]
    simp [List.range_eq_range', List.range'_succ]
  rw [hrow0]
  have := levDpLoop_spec str1 str2 []
  simp only [List.length_nil] at this
  rw [this]
  rw [levRowFrom_getLastD str1 (str2.reverse ++ []) [] 0]
  simp

theorem lev_length_bounds : ∀ (N : Nat) (s t : List Char),
    s.length + t.length ≤ N →
    t.length ≤ s.length + lev s t ∧ s.length ≤ t.length + lev s t := by
  intro N
  induction N with
  | zero =>
      intro s t h
      have hs : s = [] := by cases s <;> simp_all
      have ht : t = [] := by cases t <;> simp_all
      subst hs; subst ht
      simp [lev_nil_left]
  | succ N ih =>
      intro s t h
      match s, t with
      | [], t =>
          simp only [lev_nil_left, List.length_nil]
          omega
      | c :: s', [] =>
          simp only [lev_nil_right, List.length_nil, List.length_cons]
          omega
      | c :: s', b :: t' =>
          simp only [List.length_cons] at h
          have h1 := ih s' t' (by omega)
          have h2 := ih (c :: s') t'
            (by simp only [List.length_cons]; omega)
          have h3 := ih s' (b :: t')
            (by simp only [List.length_cons]; omega)
          simp only [List.length_cons] at h1 h2 h3 ⊢
          rw [lev_cons_cons]
          split_ifs <;>
            first
              | (simp only [Nat.min_def]; split_ifs <;> omega)
              | omega

theorem lev_len_lower (s t : List Char) :
    t.length ≤ s.length + lev s t ∧ s.length ≤ t.length + lev s t :=
  lev_length_bounds (s.length + t.length) s t le_rfl

theorem lev_cons_diff : ∀ (N : Nat) (s t : List Char),
    s.length + t.length ≤ N → ∀ c : Char,
    lev (c :: s) t ≤ 1 + lev s t ∧ lev s t ≤ 1 + lev (c :: s) t ∧
    lev s (c :: t) ≤ 1 + lev s t ∧ lev s t ≤ 1 + lev s (c :: t) := by
  intro N
  induction N with
  | zero =>
      intro s t h c
      have hs : s = [] := by cases s <;> simp_all
      have ht : t = [] := by cases t <;> simp_all
      subst hs; subst ht
      refine ⟨?_, ?_, ?_, ?_⟩ <;>
        simp [lev_nil_left, lev_nil_right]
  | succ N ih =>
      intro s t h c
      match s, t with
      | [], [] =>
          refine ⟨?_, ?_, ?_, ?_⟩ <;>
            simp [lev_nil_left, lev_nil_right]
      | [], b :: t' =>
          have hA := (lev_len_lower [c] t').1
          simp only [List.length_cons, List.length_nil] at hA
          refine ⟨?_, ?_, ?_, ?_⟩ <;>
            (simp only [lev_cons_cons, lev_nil_left, List.length_cons,
              List.length_nil, Nat.min_def]
             first
               | (split_ifs <;> omega)
               | omega)
      | c1 :: s', [] =>
          have hD := (lev_len_lower s' [c]).2
          simp only [List.length_cons, List.length_nil] at hD
          refine ⟨?_, ?_, ?_, ?_⟩ <;>
            (simp only [lev_cons_cons, lev_nil_right, lev_nil_left,
              List.length_cons, List.length_nil, Nat.min_def]
             first
               | (split_ifs <;> omega)
               | omega)
      | c1 :: s', b :: t' =>
          simp only [List.length_cons] at h
          obtain ⟨f4, f3, -, -⟩ :=
            ih (c1 :: s') t' (by simp only [List.length_cons]; omega) c
          obtain ⟨-, -, g4, g3⟩ :=
            ih s' (b :: t') (by simp only [List.length_cons]; omega) c
          obtain ⟨g2c1, g1c1, -, -⟩ :=
            ih s' (b :: t') (by simp only [List.length_cons]; omega) c1
          obtain ⟨-, -, f2bb, f1bb⟩ :=
            ih (c1 :: s') t' (by simp only [List.length_cons]; omega) b
          refine ⟨?_, ?_, ?_, ?_⟩
          · rw [lev_cons_cons c b (c1 :: s') t']
            simp only [Nat.min_def]
            split_ifs <;> omega
          · rw [lev_cons_cons c b (c1 :: s') t']
            simp only [Nat.min_def]
            split_ifs <;> omega
          · rw [lev_cons_cons c1 c s' (b :: t')]
            simp only [Nat.min_def]
            split_ifs <;> omega
          · rw [lev_cons_cons c1 c s' (b :: t')]
            simp only [Nat.min_def]
            split_ifs <;> omega

theorem lev_self : ∀ s : List Char, lev s s = 0 := by
  intro s
  induction s with
  | nil => simp [lev_nil_left]
  | cons a s ih => rw [lev_cons_cons, if_pos rfl, ih]

theorem lev_eq_zero_iff : ∀ s t : List Char, lev s t = 0 ↔ s = t := by
  intro s
  induction s with
  | nil =>
      intro t
      rw [lev_nil_left]
      cases t <;> simp
  | cons c s' ih =>
      intro t
      cases t with
      | nil => rw [lev_nil_right]; simp
      | cons b t' =>
          rw [lev_cons_cons]
          by_cases heq : c = b
          · rw [if_pos heq, ih t']
            subst heq
            simp
          · rw [if_neg heq]
            simp [heq]

theorem lev_le_max : ∀ s t : List Char, lev s t ≤ max s.length t.length := by
  intro s
  induction s with
  | nil =>
      intro t
      rw [lev_nil_left]
      omega
  | cons c s' ih =>
      intro t
      cases t with
      | nil =>
          rw [lev_nil_right]
          simp
      | cons b t' =>
          have := ih t'
          rw [lev_cons_cons]
          simp only [List.length_cons]
          by_cases heq : c = b
          · rw [if_pos heq]; omega
          · rw [if_neg heq]
            simp only [Nat.min_def]
            split_ifs <;> omega

/-- A single-character edit: insert, delete, or substitute one character
at an arbitrary position. -/
inductive CharEdit : List Char → List Char → Prop
  | ins (u v : List Char) (a : Char) : CharEdit (u ++ v) (u ++ a :: v)
  | del (u v : List Char) (a : Char) : CharEdit (u ++ a :: v) (u ++ v)
  | sub (u v : List Char) (a b : Char) : CharEdit (u ++ a :: v) (u ++ b :: v)

/-- `EditSeq s t n`: `s` can be transformed into `t` by `n`
single-character edits.  The reference edit distance of `s` and `t` is the
least such `n`. -/
inductive EditSeq : List Char → List Char → Nat → Prop
  | refl (s : List Char) : EditSeq s s 0
  | step {s t u : List Char} {n : Nat} :
      CharEdit s t → EditSeq t u n → EditSeq s u (n + 1)

theorem charEdit_cons {s t : List Char} (c : Char) (h : CharEdit s t) :
    CharEdit (c :: s) (c :: t) := by
  cases h with
  | ins u v a => exact CharEdit.ins (c :: u) v a
  | del u v a => exact CharEdit.del (c :: u) v a
  | sub u v a b => exact CharEdit.sub (c :: u) v a b

theorem editSeq_cons {s t : List Char} {n : Nat} (c : Char)
    (h : EditSeq s t n) : EditSeq (c :: s) (c :: t) n := by
  induction h with
  | refl s => exact EditSeq.refl (c :: s)
  | step e _ ih => exact EditSeq.step (charEdit_cons c e) ih

theorem EditSeq.snoc {s t u : List Char} {n : Nat} (h : EditSeq s t n)
    (e : CharEdit t u) : EditSeq s u (n + 1) := by
  induction h with
  | refl s => exact EditSeq.step e (EditSeq.refl u)
  | step e0 _ ih => exact EditSeq.step e0 (ih e)

theorem charEdit_symm {s t : List Char} (h : CharEdit s t) : CharEdit t s := by
  cases h with
  | ins u v a => exact CharEdit.del u v a
  | del u v a => exact CharEdit.ins u v a
  | sub u v a b => exact CharEdit.sub u v b a

theorem editSeq_symm {s t : List Char} {n : Nat} (h : EditSeq s t n) :
    EditSeq t s n := by
  induction h with
  | refl s => exact EditSeq.refl s
  | step e _ ih => exact ih.snoc (charEdit_symm e)

theorem charEdit_reverse {s t : List Char} (h : CharEdit s t) :
    CharEdit s.reverse t.reverse := by
  cases h with
  | ins u v a =>
      have h1 : (u ++ v).reverse = v.reverse ++ u.reverse := by simp
      have h2 : (u ++ a :: v).reverse = v.reverse ++ a :: u.reverse := by simp
      rw [h1, h2]
      exact CharEdit.ins v.reverse u.reverse a
  | del u v a =>
      have h1 : (u ++ v).reverse = v.reverse ++ u.reverse := by simp
      have h2 : (u ++ a :: v).reverse = v.reverse ++ a :: u.reverse := by simp
      rw [h1, h2]
      exact CharEdit.del v.reverse u.reverse a
  | sub u v a b =>
      have h1 : (u ++ a :: v).reverse = v.reverse ++ a :: u.reverse := by simp
      have h2 : (u ++ b :: v).reverse = v.reverse ++ b :: u.reverse := by simp
      rw [h1, h2]
      exact CharEdit.sub v.reverse u.reverse a b

theorem editSeq_reverse {s t : List Char} {n : Nat} (h : EditSeq s t n) :
    EditSeq s.reverse t.reverse n := by
  induction h with
  | refl s => exact EditSeq.refl s.reverse
  | step e _ ih => exact EditSeq.step (charEdit_reverse e) ih

theorem EditSeq.ins_all : ∀ t : List Char, EditSeq [] t t.length := by
  intro t
  induction t with
  | nil => exact EditSeq.refl []
  | cons a t' ih =>
      have e : CharEdit [] [a] := CharEdit.ins [] [] a
      exact EditSeq.step e (editSeq_cons a ih)

theorem EditSeq.del_all : ∀ s : List Char, EditSeq s [] s.length := by
  intro s
  induction s with
  | nil => exact EditSeq.refl []
  | cons a s' ih =>
      have e : CharEdit (a :: s') s' := CharEdit.del [] s' a
      exact EditSeq.step e ih

theorem editSeq_lev : ∀ (N : Nat) (s t : List Char),
    s.length + t.length ≤ N → EditSeq s t (lev s t) := by
  intro N
  induction N with
  | zero =>
      intro s t h
      have hs : s = [] := by cases s <;> simp_all
      have ht : t = [] := by cases t <;> simp_all
      subst hs; subst ht
      rw [lev_nil_left]
      exact EditSeq.refl []
  | succ N ih =>
      intro s t h
      match s, t with
      | [], t =>
          rw [lev_nil_left]
          exact EditSeq.ins_all t
      | c :: s', [] =>
          rw [lev_nil_right]
          exact EditSeq.del_all (c :: s')
      | c :: s', b :: t' =>
          simp only [List.length_cons] at h
          rw [lev_cons_cons]
          by_cases heq : c = b
          · rw [if_pos heq]
            subst heq
            exact editSeq_cons c (ih s' t' (by omega))
          · rw [if_neg heq]
            have hsub : EditSeq (c :: s') (b :: t') (lev s' t' + 1) := by
              have e : CharEdit (c :: s') (b :: s') := CharEdit.sub [] s' c b
              exact EditSeq.step e (editSeq_cons b (ih s' t' (by omega)))
            have hdel : EditSeq (c :: s') (b :: t') (lev s' (b :: t') + 1) := by
              have e : CharEdit (c :: s') s' := CharEdit.del [] s' c
              exact EditSeq.step e
                (ih s' (b :: t') (by simp only [List.length_cons]; omega))
            have hins : EditSeq (c :: s') (b :: t') (lev (c :: s') t' + 1) := by
              have e : CharEdit t' (b :: t') := CharEdit.ins [] t' b
              exact (ih (c :: s') t'
                (by simp only [List.length_cons]; omega)).snoc e
            have hmin : min (lev s' t') (min (lev (c :: s') t') (lev s' (b :: t'))) =
                lev s' t' ∨
                min (lev s' t') (min (lev (c :: s') t') (lev s' (b :: t'))) =
                lev (c :: s') t' ∨
                min (lev s' t') (min (lev (c :: s') t') (lev s' (b :: t'))) =
                lev s' (b :: t') := by
              simp only [Nat.min_def]
              split_ifs <;> omega
            rcases hmin with hm | hm | hm <;> rw [hm]
            · rw [Nat.add_comm]
              exact hsub
            · rw [Nat.add_comm]
              exact hins
            · rw [Nat.add_comm]
              exact hdel

/-- Structural (left-to-right) alignment of two strings: each step copies
matching heads for free or pays 1 for a substitution, deletion or
insertion.  Intermediate device for the lower-bound proof. -/
inductive Aligns : List Char → List Char → Nat → Prop
  | nil : Aligns [] [] 0
  | copy {s t : List Char} {n : Nat} (a : Char) :
      Aligns s t n → Aligns (a :: s) (a :: t) n
  | subst {s t : List Char} {n : Nat} (a b : Char) :
      Aligns s t n → Aligns (a :: s) (b :: t) (n + 1)
  | delete {s t : List Char} {n : Nat} (a : Char) :
      Aligns s t n → Aligns (a :: s) t (n + 1)
  | insert {s t : List Char} {n : Nat} (b : Char) :
      Aligns s t n → Aligns s (b :: t) (n + 1)

theorem Aligns.self : ∀ s : List Char, Aligns s s 0 := by
  intro s
  induction s with
  | nil => exact Aligns.nil
  | cons a s ih => exact Aligns.copy a ih

theorem lev_le_aligns {s t : List Char} {n : Nat} (h : Aligns s t n) :
    lev s t ≤ n := by
  induction h with
  | nil => rw [lev_nil_left]; simp
  | copy a _ ih =>
      rw [lev_cons_cons, if_pos rfl]
      exact ih
  | subst a b _ ih =>
      rw [lev_cons_cons]
      rename_i s' t' n' _
      by_cases heq : a = b
      · rw [if_pos heq]; omega
      · rw [if_neg heq]
        have h1 : min (lev s' t') (min (lev (a :: s') t') (lev s' (b :: t'))) ≤
            lev s' t' := Nat.min_le_left _ _
        omega
  | delete a _ ih =>
      rename_i s' t' n' _
      have := (lev_cons_diff (s'.length + t'.length) s' t' le_rfl a).1
      omega
  | insert b _ ih =>
      rename_i s' t' n' _
      have := (lev_cons_diff (s'.length + t'.length) s' t' le_rfl b).2.2.1
      omega

theorem aligns_insert_left {s u : List Char} {m : Nat} (h : Aligns s u m) :
    ∀ (p v : List Char) (a : Char), s = p ++ v →
      ∃ k, k ≤ m + 1 ∧ Aligns (p ++ a :: v) u k := by
  induction h with
  | nil =>
      intro p v a hs
      obtain ⟨hp, hv⟩ := List.append_eq_nil.mp hs.symm
      subst hp; subst hv
      exact ⟨1, le_rfl, Aligns.delete a Aligns.nil⟩
  | copy c h ih =>
      rename_i s₁ u₁ n
      intro p v a hs
      cases p with
      | nil =>
          simp only [List.nil_append] at hs ⊢
          subst hs
          exact ⟨n + 1, le_rfl, Aligns.delete a (Aligns.copy c h)⟩
      | cons c' p' =>
          rw [List.cons_append] at hs
          injection hs with hc hs'
          subst hc
          obtain ⟨k, hk, hal⟩ := ih p' v a hs'
          exact ⟨k, hk, by rw [List.cons_append]; exact Aligns.copy c hal⟩
  | subst c d h ih =>
      rename_i s₁ u₁ n
      intro p v a hs
      cases p with
      | nil =>
          simp only [List.nil_append] at hs ⊢
          subst hs
          exact ⟨n + 2, le_rfl, Aligns.delete a (Aligns.subst c d h)⟩
      | cons c' p' =>
          rw [List.cons_append] at hs
          injection hs with hc hs'
          subst hc
          obtain ⟨k, hk, hal⟩ := ih p' v a hs'
          exact ⟨k + 1, by omega,
            by rw [List.cons_append]; exact Aligns.subst c d hal⟩
  | delete c h ih =>
      rename_i s₁ u₁ n
      intro p v a hs
      cases p with
      | nil =>
          simp only [List.nil_append] at hs ⊢
          subst hs
          exact ⟨n + 2, le_rfl, Aligns.delete a (Aligns.delete c h)⟩
      | cons c' p' =>
          rw [List.cons_append] at hs
          injection hs with hc hs'
          subst hc
          obtain ⟨k, hk, hal⟩ := ih p' v a hs'
          exact ⟨k + 1, by omega,
            by rw [List.cons_append]; exact Aligns.delete c hal⟩
  | insert d h ih =>
      intro p v a hs
      obtain ⟨k, hk, hal⟩ := ih p v a hs
      exact ⟨k + 1, by omega, Aligns.insert d hal⟩

theorem aligns_delete_left {s u : List Char} {m : Nat} (h : Aligns s u m) :
    ∀ (p v : List Char) (a : Char), s = p ++ a :: v →
      ∃ k, k ≤ m + 1 ∧ Aligns (p ++ v) u k := by
  induction h with
  | nil =>
      intro p v a hs
      exact absurd hs.symm (by simp)
  | copy c h ih =>
      rename_i s₁ u₁ n
      intro p v a hs
      cases p with
      | nil =>
          simp only [List.nil_append] at hs ⊢
          injection hs with hc hs'
          subst hc; subst hs'
          exact ⟨n + 1, le_rfl, Aligns.insert c h⟩
      | cons c' p' =>
          rw [List.cons_append] at hs
          injection hs with hc hs'
          subst hc
          obtain ⟨k, hk, hal⟩ := ih p' v a hs'
          exact ⟨k, hk, by rw [List.cons_append]; exact Aligns.copy c hal⟩
  | subst c d h ih =>
      rename_i s₁ u₁ n
      intro p v a hs
      cases p with
      | nil =>
          simp only [List.nil_append] at hs ⊢
          injection hs with hc hs'
          subst hc; subst hs'
          exact ⟨n + 1, by omega, Aligns.insert d h⟩
      | cons c' p' =>
          rw [List.cons_append] at hs
          injection hs with hc hs'
          subst hc
          obtain ⟨k, hk, hal⟩ := ih p' v a hs'
          exact ⟨k + 1, by omega,
            by rw [List.cons_append]; exact Aligns.subst c d hal⟩
  | delete c h ih =>
      rename_i s₁ u₁ n
      intro p v a hs
      cases p with
      | nil =>
          simp only [List.nil_append] at hs ⊢
          injection hs with hc hs'
          subst hc; subst hs'
          exact ⟨n, by omega, h⟩
      | cons c' p' =>
          rw [List.cons_append] at hs
          injection hs with hc hs'
          subst hc
          obtain ⟨k, hk, hal⟩ := ih p' v a hs'
          exact ⟨k + 1, by omega,
            by rw [List.cons_append]; exact Aligns.delete c hal⟩
  | insert d h ih =>
      intro p v a hs
      obtain ⟨k, hk, hal⟩ := ih p v a hs
      exact ⟨k + 1, by omega, Aligns.insert d hal⟩

theorem aligns_sub_left {s u : List Char} {m : Nat} (h : Aligns s u m) :
    ∀ (p v : List Char) (a b : Char), s = p ++ a :: v →
      ∃ k, k ≤ m + 1 ∧ Aligns (p ++ b :: v) u k := by
  induction h with
  | nil =>
      intro p v a b hs
      exact absurd hs.symm (by simp)
  | copy c h ih =>
      rename_i s₁ u₁ n
      intro p v a b hs
      cases p with
      | nil =>
          simp only [List.nil_append] at hs ⊢
          injection hs with hc hs'
          subst hc; subst hs'
          exact ⟨n + 1, le_rfl, Aligns.subst b c h⟩
      | cons c' p' =>
          rw [List.cons_append] at hs
          injection hs with hc hs'
          subst hc
          obtain ⟨k, hk, hal⟩ := ih p' v a b hs'
          exact ⟨k, hk, by rw [List.cons_append]; exact Aligns.copy c hal⟩
  | subst c d h ih =>
      rename_i s₁ u₁ n
      intro p v a b hs
      cases p with
      | nil =>
          simp only [List.nil_append] at hs ⊢
          injection hs with hc hs'
          subst hc; subst hs'
          exact ⟨n + 1, by omega, Aligns.subst b d h⟩
      | cons c' p' =>
          rw [List.cons_append] at hs
          injection hs with hc hs'
          subst hc
          obtain ⟨k, hk, hal⟩ := ih p' v a b hs'
          exact ⟨k + 1, by omega,
            by rw [List.cons_append]; exact Aligns.subst c d hal⟩
  | delete c h ih =>
      rename_i s₁ u₁ n
      intro p v a b hs
      cases p with
      | nil =>
          simp only [List.nil_append] at hs ⊢
          injection hs with hc hs'
          subst hc; subst hs'
          exact ⟨n + 1, by omega, Aligns.delete b h⟩
      | cons c' p' =>
          rw [List.cons_append] at hs
          injection hs with hc hs'
          subst hc
          obtain ⟨k, hk, hal⟩ := ih p' v a b hs'
          exact ⟨k + 1, by omega,
            by rw [List.cons_append]; exact Aligns.delete c hal⟩
  | insert d h ih =>
      intro p v a b hs
      obtain ⟨k, hk, hal⟩ := ih p v a b hs
      exact ⟨k + 1, by omega, Aligns.insert d hal⟩

theorem editSeq_to_aligns {s t : List Char} {n : Nat} (h : EditSeq s t n) :
    ∃ m, m ≤ n ∧ Aligns s t m := by
  induction h with
  | refl s => exact ⟨0, le_rfl, Aligns.self s⟩
  | step e _ ih =>
      obtain ⟨m, hm, hal⟩ := ih
      cases e with
      | ins u v a =>
          obtain ⟨k, hk, hal'⟩ := aligns_delete_left hal u v a rfl
          exact ⟨k, by omega, hal'⟩
      | del u v a =>
          obtain ⟨k, hk, hal'⟩ := aligns_insert_left hal u v a rfl
          exact ⟨k, by omega, hal'⟩
      | sub u v a b =>
          obtain ⟨k, hk, hal'⟩ := aligns_sub_left hal u v b a rfl
          exact ⟨k, by omega, hal'⟩

theorem lev_le_editSeq {s t : List Char} {n : Nat} (h : EditSeq s t n) :
    lev s t ≤ n := by
  obtain ⟨m, hm, hal⟩ := editSeq_to_aligns h
  exact (lev_le_aligns hal).trans hm

theorem lev_isLeast (s t : List Char) :
    IsLeast {n | EditSeq s t n} (lev s t) :=
  ⟨editSeq_lev (s.length + t.length) s t le_rfl,
    fun _ hn => lev_le_editSeq hn⟩

theorem editSeq_set_reverse (s1 s2 : List Char) :
    {n | EditSeq s1 s2 n} = {n | EditSeq s2.reverse s1.reverse n} := by
  ext n
  constructor
  · intro h
    exact editSeq_reverse (editSeq_symm h)
  · intro h
    have := editSeq_reverse (editSeq_symm h)
    simpa using this

/-- C6: `levenshteinDistance(str1, str2)` equals the reference edit
distance — it is the least number of single-character insertions,
deletions and substitutions transforming `str1` into `str2` — and
consequently it is symmetric, zero exactly when the strings are equal, and
never exceeds the length of the longer string. -/
theorem C6_levenshteinDistance_correct (str1 str2 : List Char) :
    IsLeast {n | EditSeq str1 str2 n} (levenshteinDistance str1 str2) ∧
    levenshteinDistance str1 str2 = levenshteinDistance str2 str1 ∧
    (levenshteinDistance str1 str2 = 0 ↔ str1 = str2) ∧
    levenshteinDistance str1 str2 ≤ max str1.length str2.length := by
  have hds : levenshteinDistance str1 str2 = lev str2.reverse str1.reverse :=
    levenshteinDistance_eq_lev str1 str2
  have hls : IsLeast {n | EditSeq str1 str2 n} (levenshteinDistance str1 str2) := by
    rw [hds, editSeq_set_reverse str1 str2]
    exact lev_isLeast str2.reverse str1.reverse
  refine ⟨hls, ?_, ?_, ?_⟩
  · have hset : {n | EditSeq str1 str2 n} =
        {n | EditSeq str1.reverse str2.reverse n} := by
      ext n
      constructor
      · intro h
        exact editSeq_reverse h
      · intro h
        simpa using editSeq_reverse h
    have hls2 : IsLeast {n | EditSeq str1 str2 n}
        (levenshteinDistance str2 str1) := by
      rw [levenshteinDistance_eq_lev str2 str1, hset]
      exact lev_isLeast str1.reverse str2.reverse
    exact hls.unique hls2
  · rw [hds, lev_eq_zero_iff]
    constructor
    · intro h
      have := congrArg List.reverse h
      simpa using this.symm
    · intro h
      rw [h]
  · rw [hds]
    have := lev_le_max str2.reverse str1.reverse
    simpa [Nat.max_comm] using this

/-- Concrete instance of `C6_levenshteinDistance_correct`, together with a
direct evaluation: kitten/sitting has distance 3, and that distance is the
least edit-script length. -/
theorem C6_witness :
    levenshteinDistance "kitten".toList "sitting".toList = 3 ∧
    IsLeast {n | EditSeq "kitten".toList "sitting".toList n}
      (levenshteinDistance "kitten".toList "sitting".toList) :=
  ⟨by decide, (C6_levenshteinDistance_correct "kitten".toList "sitting".toList).1⟩
